import Mathlib

/-!
# ofxRleImage: run-length transition encoding of a two-level raster

A shallow embedding of `addons/ofxRle/src/ofxRleImage.cpp`:

* `ofxRleImage.load`      is `ofxRleImage::load(ofImage&)` (both scanning strategies),
* `ofxRleImage.update`    is `ofxRleImage::update()` (reconstruction of the line endpoints),
* `ofxRleImage.updateRun` is the same method with every way in which a call can end,
* `operatorInsert`        is `operator<<(ostream&, const ofxRleImage&)`,
* `operatorExtract`       is `operator>>(istream&, ofxRleImage&)`.

Conventions.  A byte is a `Nat`, a buffer is a `List Nat`, `unsigned int` values are `Nat`
reduced `% 2^32` where they are produced, `int nPixels` is an `Int` obtained through
`toInt32`.  Operations with undefined behaviour (a word written outside the pixel buffer, a
division by a zero width) make the embedded function return `none`.  The number of elements
of `data` is taken to fit the `int` counters that run over it (`nLineEndpoints`, `i`).
-/

/-! ## Data model -/

/-- The image kinds of the image-loading collaborator; `load` only looks at grayscale. -/
inductive ofImageType where
  | OF_IMAGE_GRAYSCALE
  | OF_IMAGE_COLOR
  | OF_IMAGE_COLOR_ALPHA
  deriving DecidableEq, Repr

/-- The part of `ofImage` that `load` touches: `type`, `getWidth()`, `getHeight()` and the
buffer behind `getPixels()`. -/
structure ofImage where
  type : ofImageType
  width : Nat
  height : Nat
  pixels : List Nat
  deriving DecidableEq, Repr

/-- Modelled from the spec: `RlePoint2d` is declared in the header `ofxRleImage.h`, which is
not part of the sources; the spec gives a point as `{x: u32, y: u32}`. -/
structure RlePoint2d where
  x : Nat
  y : Nat
  deriving DecidableEq, Repr

/-- The members of `ofxRleImage` used by the encoder, the reconstruction and the stream
operators (`centroid` is a pair of floats that none of them reads). -/
structure ofxRleImage where
  width : Nat
  height : Nat
  data : List Nat
  lines : List RlePoint2d
  deriving DecidableEq, Repr

/-- The state left by the constructor `ofxRleImage::ofxRleImage()`. -/
def ofxRleImage.new : ofxRleImage := ⟨0, 0, [], []⟩

/-! ## Machine integers and memory -/

/-- Conversion of an `unsigned int` value to `int` (two's complement). -/
def toInt32 (x : Nat) : Int :=
  if x % 2 ^ 32 < 2 ^ 31 then ((x % 2 ^ 32 : Nat) : Int) else ((x % 2 ^ 32 : Nat) : Int) - 2 ^ 32

/-- Conversion of an `int` to `unsigned int`. -/
def toUInt32 (x : Int) : Nat := (x % 2 ^ 32).toNat

/-- The byte `raw[i]`; inside the buffer whenever the callers below read it. -/
def byteAt (raw : List Nat) (i : Nat) : Nat := raw.getD i 0

/-- Value of a little-endian byte string. -/
def leVal : List Nat → Nat
  | [] => 0
  | b :: bs => b + 256 * leVal bs

/-- The `uint64_t` read at `firstChunk[c]`. -/
def chunkVal (raw : List Nat) (c : Nat) : Nat :=
  leVal ((List.range 8).map (fun k => byteAt raw (8 * c + k)))

/-- The buffer with the eight bytes of chunk `c` cleared. -/
def zeroChunk (raw : List Nat) (c : Nat) : List Nat :=
  raw.take (8 * c) ++ List.replicate 8 0 ++ raw.drop (8 * c + 8)

/-- The store `firstChunk[c] = 0`: eight bytes are cleared; a word that does not lie inside
the buffer cannot be written. -/
def writeChunk (raw : List Nat) (c : Int) : Option (List Nat) :=
  if 0 ≤ c ∧ 8 * c.toNat + 8 ≤ raw.length then some (zeroChunk raw c.toNat) else none

/-! ## `ofxRleImage::load(ofImage&)` -/

/-- One iteration of the per-byte loop (lines 70-76); the state is `(prevVal, data)`. -/
def slowStep (raw : List Nat) (st : Nat × List Nat) (curIndex : Nat) : Nat × List Nat :=
  let curVal := byteAt raw curIndex
  (curVal, if curVal ≠ st.1 then st.2 ++ [curIndex] else st.2)

/-- The per-byte loop `for (curIndex = 0; curIndex < nPixels; curIndex++)` with
`prevVal = 0` and an empty `data` at entry. -/
def slowScan (raw : List Nat) (nPixels : Int) : List Nat :=
  ((List.range nPixels.toNat).foldl (slowStep raw) (0, [])).2

/-- One iteration of the inner loop over the 24-byte window (lines 52-62): `triplet` starts
at chunk `curChunk - 1`, the state is `(prevVal, data)`. -/
def fastStep (raw : List Nat) (curChunk nextChunkVal : Nat) (st : Nat × List Nat)
    (curIndex : Nat) : Nat × List Nat :=
  let curVal := byteAt raw (8 * (curChunk - 1) + curIndex)
  let data :=
    if curVal ≠ st.1 then
      if curIndex < 8 + 8 then st.2 ++ [(curChunk - 1) * 8 + curIndex]
      else if nextChunkVal = 0 then st.2 ++ [(curChunk - 1) * 8 + curIndex]
      else st.2
    else st.2
  (curVal, data)

/-- The body of `while (curChunk < lastChunk)` for one chunk (lines 44-63). -/
def fastChunk (raw : List Nat) (data : List Nat) (curChunk : Nat) : List Nat :=
  let curChunkVal := chunkVal raw curChunk
  if curChunkVal ≠ 0 then
    let nextChunkVal := chunkVal raw (curChunk + 1)
    let prevVal := byteAt raw (8 * (curChunk - 1) + (8 - 1))
    ((List.range' 8 (8 + 1)).foldl (fastStep raw curChunk nextChunkVal) (prevVal, data)).2
  else data

/-- The loop `while (curChunk < lastChunk)` with `curChunk = &firstChunk[1]` at entry: the
chunks `1, ..., lastChunk - 1` are visited in order. -/
def fastScan (raw : List Nat) (lastChunk : Nat) : List Nat :=
  (List.range' 1 (lastChunk - 1)).foldl (fastChunk raw) []

/-- Lines 79-82: an odd number of points is closed with `nPixels - 1`. -/
def closeRun (data : List Nat) (nPixels : Int) : List Nat :=
  if data.length % 2 = 1 then data ++ [toUInt32 (nPixels - 1)] else data

/-- The method `ofxRleImage::load(ofImage&)`.  The result is the new state of the object
together with the image as the call leaves it (the word-parallel branch writes to the pixel
buffer); `none` when a word is written outside the buffer. -/
def ofxRleImage.load (useFastEncoding : Bool) (self : ofxRleImage) (img : ofImage) :
    Option (ofxRleImage × ofImage) :=
  if img.type = ofImageType.OF_IMAGE_GRAYSCALE then
    let width := img.width % 2 ^ 32
    let height := img.height % 2 ^ 32
    let nPixels : Int := toInt32 (width * height)
    if useFastEncoding then
      let lastChunk : Int := nPixels.tdiv 8 - 1
      match writeChunk img.pixels 0 with
      | none => none
      | some raw1 =>
        match writeChunk raw1 lastChunk with
        | none => none
        | some raw2 =>
          some (⟨width, height, closeRun (fastScan raw2 lastChunk.toNat) nPixels, self.lines⟩,
                { img with pixels := raw2 })
    else
      some (⟨width, height, closeRun (slowScan img.pixels nPixels) nPixels, self.lines⟩, img)
  else some (self, img)

/-! ## `ofxRleImage::update()` -/

/-- The loop `while (prevRow < curPoint.y)` (lines 112-123); `fuel` bounds the number of
iterations, the state is `(prevRow, lines)`. -/
def bridgeRows (width y : Nat) : Nat → Nat × List RlePoint2d → Nat × List RlePoint2d
  | 0, st => st
  | fuel + 1, (prevRow, lines) =>
    if prevRow < y then
      bridgeRows width y fuel (prevRow + 1, (lines ++ [⟨width, prevRow⟩]) ++ [⟨0, prevRow + 1⟩])
    else (prevRow, lines)

/-- The body of the loop over `data` (lines 102-128) for the element `curIndex` at position
`i`; the state is `(prevRow, lines)`.  (`curPoint` starts as a copy of `lines[i]`, a slot of
the reserved storage; both of its fields are overwritten before it is used.) -/
def updateStep (width : Nat) (i curIndex : Nat) (st : Nat × List RlePoint2d) :
    Nat × List RlePoint2d :=
  let curPoint : RlePoint2d := ⟨curIndex % width, curIndex / width⟩
  let curRow := curPoint.y
  let st1 := if i % 2 = 1 then bridgeRows width curPoint.y (curPoint.y - st.1) st else st
  (curRow, st1.2 ++ [curPoint])

/-- The loop `for (i = 0; i < nLineEndpoints; i++)` from position `i` on. -/
def updateLoop (width : Nat) : List Nat → Nat → Nat × List RlePoint2d → Nat × List RlePoint2d
  | [], _, st => st
  | curIndex :: rest, i, st => updateLoop width rest (i + 1) (updateStep width i curIndex st)

/-- The point sequence that `update()` builds from `data` at `width`, for a non-zero
`width`. -/
def reconstruct (width : Nat) (data : List Nat) : List RlePoint2d :=
  (updateLoop width data 0 (0, [])).2

/-- The method `ofxRleImage::update()`, as a build without vector index checks runs it on a
`data` whose size fits `int nLineEndpoints`.  Every iteration divides by `width`, so with
`width = 0` and a non-empty `data` the first iteration already divides by zero.  The run with
all its ways of ending is `ofxRleImage.updateRun`. -/
def ofxRleImage.update (self : ofxRleImage) : Option ofxRleImage :=
  if self.width = 0 ∧ self.data ≠ [] then none
  else some { self with lines := reconstruct self.width self.data }

/-! ## Stream operators -/

/-- The four bytes of an `unsigned int` in memory (little-endian). -/
def toBytes32 (x : Nat) : List Nat :=
  [x % 256, x / 256 % 256, x / 65536 % 256, x / 16777216 % 256]

/-- The function `operator<<`: `width`, `height`, `dataSize = data.size()` as an
`unsigned int`, then the elements `data[0], ..., data[dataSize - 1]`, four bytes each. -/
def operatorInsert (out : List Nat) (img : ofxRleImage) : List Nat :=
  let dataSize := img.data.length % 2 ^ 32
  out ++ toBytes32 img.width ++ toBytes32 img.height ++ toBytes32 dataSize
    ++ ((img.data.take dataSize).map toBytes32).flatten

/-- An input stream: the bytes not yet consumed and the fail state. -/
structure istream where
  bytes : List Nat
  fail : Bool
  deriving DecidableEq, Repr

/-- The call `in.read((char*) &v, sizeof(v))` for an `unsigned int v` holding `old`: a
stream in the fail state reads nothing; when fewer than four bytes are left they are stored
over the first bytes of `v` and the stream fails. -/
def istream.read32 (s : istream) (old : Nat) : istream × Nat :=
  if s.fail then (s, old)
  else if 4 ≤ s.bytes.length then (⟨s.bytes.drop 4, false⟩, leVal (s.bytes.take 4))
  else (⟨[], true⟩, leVal (s.bytes ++ (toBytes32 old).drop s.bytes.length))

/-- The loop of `operator>>` over the resized `data` (lines 207-210): each element is read
in place. -/
def readData (s : istream) : List Nat → istream × List Nat
  | [] => (s, [])
  | cur :: rest =>
    let r := s.read32 cur
    let q := readData r.1 rest
    (q.1, r.2 :: q.2)

/-- The call `data.resize(dataSize)`: surplus elements are dropped, new ones are zero. -/
def resize (data : List Nat) (dataSize : Nat) : List Nat :=
  data.take dataSize ++ List.replicate (dataSize - data.length) 0

/-- The function `operator>>`.  `dataSize0` is the indeterminate initial content of the
local `dataSize`.  The result is the stream, and the image unless `update()` divides by
zero. -/
def operatorExtract (s : istream) (img : ofxRleImage) (dataSize0 : Nat) :
    istream × Option ofxRleImage :=
  let r1 := s.read32 img.width
  let r2 := r1.1.read32 img.height
  let r3 := r2.1.read32 dataSize0
  let dataSize := r3.2
  let q := readData r3.1 (resize img.data dataSize)
  (q.1, ofxRleImage.update { img with width := r1.2, height := r2.2, data := q.2 })

/-! ## Specification-level definitions -/

/-- A raster as the encoder expects it: grayscale, `width * height` bytes, and a pixel count
that fits the `int nPixels`. -/
def Raster (img : ofImage) : Prop :=
  img.type = ofImageType.OF_IMAGE_GRAYSCALE ∧ img.pixels.length = img.width * img.height ∧
    img.width * img.height < 2 ^ 31

instance (img : ofImage) : Decidable (Raster img) := by
  unfold Raster; infer_instance

/-- The byte before index `i`, the byte before index `0` being `0`. -/
def prevByte (raw : List Nat) (i : Nat) : Nat :=
  if i = 0 then 0 else byteAt raw (i - 1)

/-- The indices in `[lo, lo + k)` at which the byte differs from the byte before it. -/
def byteTransitions (raw : List Nat) (lo k : Nat) : List Nat :=
  (List.range' lo k).filter (fun i => decide (byteAt raw i ≠ prevByte raw i))

/-- The classification of the spec: a byte is on when it is non-zero. -/
def classify (b : Nat) : Bool := decide (b ≠ 0)

/-- The transition list of the spec: the indices in `[0, n)` at which the classification
differs from that of the pixel before, the pixel before index `0` being off. -/
def classTransitions (raw : List Nat) : List Nat :=
  (List.range raw.length).filter
    (fun i => classify (byteAt raw i) != classify (prevByte raw i))

/-- The encoding as the spec words it: the classification transitions, followed by `n - 1`
when their number is odd. -/
def specEncode (raw : List Nat) : List Nat :=
  if (classTransitions raw).length % 2 = 1 then classTransitions raw ++ [raw.length - 1]
  else classTransitions raw

/-- A two-level raster: all non-zero bytes carry one value. -/
def TwoLevel (raw : List Nat) : Prop :=
  ∃ v, ∀ b ∈ raw, b = 0 ∨ b = v

/-- The transition that the scan of chunk `c` records at the first byte of chunk `c + 1`:
the index `8 * c + 8`, when chunk `c + 1` is all zero and the last byte of chunk `c` is
not. -/
def boundaryTransition (raw : List Nat) (c : Nat) : List Nat :=
  if chunkVal raw (c + 1) = 0 ∧ byteAt raw (8 * c + 7) ≠ 0 then [8 * c + 8] else []

/-- The chunk index held by `lastChunk` for a buffer of `n` bytes. -/
def lastChunkOf (n : Nat) : Nat := n / 8 - 1

/-- The pixel buffer as the word-parallel branch leaves it. -/
def zeroedWords (raw : List Nat) (n : Nat) : List Nat :=
  zeroChunk (zeroChunk raw 0) (lastChunkOf n)

/-- The connector points for the rows `r0, ..., r0 + k - 1`: the row end `(width, r)` and the
start `(0, r + 1)` of the next row. -/
def bridgePoints (width r0 k : Nat) : List RlePoint2d :=
  (List.range' r0 k).flatMap (fun r => [⟨width, r⟩, ⟨0, r + 1⟩])

/-- The points of one pair `(s, e)`: the start point, the connectors for the rows from the
row of `s` up to the row of `e`, the end point. -/
def pairPoints (width s e : Nat) : List RlePoint2d :=
  [⟨s % width, s / width⟩] ++ bridgePoints width (s / width) (e / width - s / width)
    ++ [⟨e % width, e / width⟩]

/-- The index `i` lies in the half-open span `[s, e)` of one of the pairs
`(data[0], data[1]), (data[2], data[3]), ...`. -/
def inRuns : List Nat → Nat → Prop
  | s :: e :: rest, i => (s ≤ i ∧ i < e) ∨ inRuns rest i
  | _, _ => False

/-- The copy of a buffer of `n` bytes in which the bytes `[0, 8)` and the bytes
`[8 * (n / 8 - 1), n)` are set to zero. -/
def zeroedEnds (raw : List Nat) (n : Nat) : List Nat :=
  (List.range raw.length).map
    (fun i => if i < 8 ∨ (8 * (n / 8 - 1) ≤ i ∧ i < n) then 0 else byteAt raw i)

/-- The consecutive pairs `(l[0], l[1]), (l[2], l[3]), ...` of a list. -/
def pairsOf {α : Type} : List α → List (α × α)
  | a :: b :: rest => (a, b) :: pairsOf rest
  | _ => []

/-- The value of the local `dataSize` of `operator>>` when `data.resize(dataSize)` is
reached. -/
def extractDataSize (s : istream) (img : ofxRleImage) (dataSize0 : Nat) : Nat :=
  (((s.read32 img.width).1.read32 img.height).1.read32 dataSize0).2

/-- The elements that the loop of `operator>>` leaves when the bytes `payload` end before
the last element of `olds` (the resized `data`): an element whose four bytes are present is
read; the first element that is not present in full has its leading bytes overwritten with
the bytes that remain; the elements after it keep their value. -/
def truncatedData (payload olds : List Nat) : List Nat :=
  (List.range olds.length).map (fun j =>
    if 4 * (j + 1) ≤ payload.length then leVal ((payload.drop (4 * j)).take 4)
    else if j = payload.length / 4 then
      leVal (payload.drop (4 * j) ++ (toBytes32 (olds.getD j 0)).drop (payload.length - 4 * j))
    else olds.getD j 0)

/-- The ways in which a call of `update()` ends: it completes with the points in `lines`;
`lines.reserve(nLineEndpoints)` is asked for a negative number of elements; the read
`lines[i]` of line 103 is made with `i` not below `lines.size()` in a build that checks
vector indices; `curIndex % width` divides by zero. -/
inductive UpdateResult where
  | completed (lines : List RlePoint2d)
  | reserveFailed
  | indexOutOfRange (i size : Nat)
  | divisionByZero (i : Nat)
  deriving DecidableEq, Repr

/-- The loop of `update()` (lines 101-129) from position `i` on, with the operations of each
iteration in the order of the source: the read `lines[i]` (line 103), which a build with
checked vector indices refuses when `i` is not below `lines.size()` and which otherwise
yields a slot of the reserved storage that is overwritten; the division by `width` (lines
104-105); the rest of the body, which is `updateStep`. -/
def updateRunLoop (checkedIndex : Bool) (width : Nat) :
    List Nat → Nat → Nat × List RlePoint2d → UpdateResult
  | [], _, st => UpdateResult.completed st.2
  | curIndex :: rest, i, st =>
    if checkedIndex = true ∧ st.2.length ≤ i then UpdateResult.indexOutOfRange i st.2.length
    else if width = 0 then UpdateResult.divisionByZero i
    else updateRunLoop checkedIndex width rest (i + 1) (updateStep width i curIndex st)

/-- The method `ofxRleImage::update()` with all its ways of ending:
`int nLineEndpoints = data.size()`, `lines.clear()`, `lines.reserve(nLineEndpoints)`, then
the loop over `data[0], ..., data[nLineEndpoints - 1]`.  `checkedIndex` says whether the
build checks vector indices. -/
def ofxRleImage.updateRun (checkedIndex : Bool) (self : ofxRleImage) : UpdateResult :=
  let nLineEndpoints : Int := toInt32 self.data.length
  if nLineEndpoints < 0 then UpdateResult.reserveFailed
  else updateRunLoop checkedIndex self.width (self.data.take nLineEndpoints.toNat) 0 (0, [])

open ofImageType

/-! ## Machine-integer lemmas -/

theorem toInt32_of_lt (x : Nat) (h : x < 2 ^ 31) : toInt32 x = (x : Int) := by
  unfold toInt32
  have h1 : x % 2 ^ 32 = x := Nat.mod_eq_of_lt (by omega)
  rw [h1, if_pos h]

theorem raster_nPixels (img : ofImage) (h : Raster img) :
    toInt32 (img.width % 2 ^ 32 * (img.height % 2 ^ 32))
      = ((img.width * img.height : Nat) : Int) := by
  obtain ⟨-, -, hlt⟩ := h
  rcases Nat.eq_zero_or_pos img.width with hw | hw
  · simp [hw, toInt32]
  rcases Nat.eq_zero_or_pos img.height with hh | hh
  · simp [hh, toInt32]
  have h1 : img.width < 2 ^ 31 := lt_of_le_of_lt (Nat.le_mul_of_pos_right _ hh) hlt
  have h2 : img.height < 2 ^ 31 := lt_of_le_of_lt (Nat.le_mul_of_pos_left _ hw) hlt
  rw [Nat.mod_eq_of_lt (by omega : img.width < 2 ^ 32),
    Nat.mod_eq_of_lt (by omega : img.height < 2 ^ 32)]
  exact toInt32_of_lt _ hlt

theorem toUInt32_pred (n : Nat) (h0 : 0 < n) (h : n < 2 ^ 32) :
    toUInt32 ((n : Int) - 1) = n - 1 := by
  unfold toUInt32
  have : ((n : Int) - 1) % 2 ^ 32 = (n : Int) - 1 := Int.emod_eq_of_lt (by omega) (by omega)
  rw [this]; omega

/-! ## The per-byte scan -/

theorem prevByte_succ (raw : List Nat) (i : Nat) : prevByte raw (i + 1) = byteAt raw i := by
  simp [prevByte]

theorem byteTransitions_succ (raw : List Nat) (lo k : Nat) :
    byteTransitions raw lo (k + 1) = byteTransitions raw lo k ++
      (if byteAt raw (lo + k) ≠ prevByte raw (lo + k) then [lo + k] else []) := by
  unfold byteTransitions
  rw [List.range'_concat, List.filter_append]
  by_cases hne : byteAt raw (lo + k) = prevByte raw (lo + k) <;> simp [hne]

theorem byteTransitions_add (raw : List Nat) (lo k m : Nat) :
    byteTransitions raw lo (k + m) = byteTransitions raw lo k ++ byteTransitions raw (lo + k) m := by
  unfold byteTransitions
  rw [Nat.add_comm k m, ← List.range'_append, List.filter_append]
  simp

theorem slowScan_fold (raw : List Nat) (k : Nat) :
    (List.range k).foldl (slowStep raw) (0, []) = (prevByte raw k, byteTransitions raw 0 k) := by
  induction k with
  | zero => simp [prevByte, byteTransitions]
  | succ k ih =>
    rw [List.range_succ, List.foldl_append, ih, byteTransitions_succ]
    simp only [List.foldl_cons, List.foldl_nil, slowStep, prevByte_succ, zero_add]
    by_cases hne : byteAt raw k = prevByte raw k <;> simp [hne]

theorem slowScan_eq (raw : List Nat) (n : Nat) :
    slowScan raw (n : Int) = byteTransitions raw 0 n := by
  simp [slowScan, slowScan_fold]

theorem mem_byteTransitions (raw : List Nat) (lo k i : Nat) :
    i ∈ byteTransitions raw lo k ↔ (lo ≤ i ∧ i < lo + k) ∧ byteAt raw i ≠ prevByte raw i := by
  unfold byteTransitions
  rw [List.mem_filter, List.mem_range'_1]
  simp

theorem byteTransitions_sorted (raw : List Nat) (lo k : Nat) :
    (byteTransitions raw lo k).Pairwise (· < ·) := by
  unfold byteTransitions
  apply List.Pairwise.filter
  exact List.pairwise_lt_range' lo k

theorem byteTransitions_length_le (raw : List Nat) (lo k : Nat) :
    (byteTransitions raw lo k).length ≤ k := by
  unfold byteTransitions
  exact (List.length_filter_le _ _).trans (by simp)

/-- The reference branch of `load` on a raster, in closed form. -/
theorem load_reference_eq (self : ofxRleImage) (img : ofImage) (h : Raster img) :
    ofxRleImage.load false self img = some
      (⟨img.width % 2 ^ 32, img.height % 2 ^ 32,
        closeRun (byteTransitions img.pixels 0 (img.width * img.height))
          ((img.width * img.height : Nat) : Int), self.lines⟩, img) := by
  unfold ofxRleImage.load
  rw [if_pos h.1]
  simp only [raster_nPixels img h, slowScan_eq]
  simp

theorem closeRun_eq (data : List Nat) (n : Nat) (hn : n < 2 ^ 32) (hpos : data ≠ [] → 0 < n) :
    closeRun data (n : Int) = if data.length % 2 = 1 then data ++ [n - 1] else data := by
  unfold closeRun
  split
  · rename_i hodd
    have : data ≠ [] := by rintro rfl; simp at hodd
    rw [toUInt32_pred n (hpos this) hn]
  · rfl

/-! ## Two-level rasters -/

theorem byteAt_mem_or_zero (raw : List Nat) (i : Nat) : byteAt raw i = 0 ∨ byteAt raw i ∈ raw := by
  unfold byteAt
  by_cases hi : i < raw.length
  · right
    rw [List.getD_eq_getElem _ _ hi]
    exact List.getElem_mem hi
  · left
    exact List.getD_eq_default _ _ (by omega)

theorem twoLevel_byteAt (raw : List Nat) (v : Nat) (h : ∀ b ∈ raw, b = 0 ∨ b = v) (i : Nat) :
    byteAt raw i = 0 ∨ byteAt raw i = v := by
  rcases byteAt_mem_or_zero raw i with h0 | hm
  · exact Or.inl h0
  · exact h _ hm

theorem twoLevel_prevByte (raw : List Nat) (v : Nat) (h : ∀ b ∈ raw, b = 0 ∨ b = v) (i : Nat) :
    prevByte raw i = 0 ∨ prevByte raw i = v := by
  unfold prevByte
  split
  · exact Or.inl rfl
  · exact twoLevel_byteAt raw v h _

theorem classTransitions_eq_of_twoLevel (raw : List Nat) (h : TwoLevel raw) :
    classTransitions raw = byteTransitions raw 0 raw.length := by
  obtain ⟨v, hv⟩ := h
  unfold classTransitions byteTransitions
  rw [List.range_eq_range']
  apply List.filter_congr
  intro i _
  rcases twoLevel_byteAt raw v hv i with h1 | h1 <;>
    rcases twoLevel_prevByte raw v hv i with h2 | h2 <;>
    by_cases hv0 : v = 0 <;> simp [classify, h1, h2, hv0]
  all_goals omega

/-! ## C1 -/

/-- C1, as stated, fails: on the 3x1 raster `[1, 2, 0]` the per-byte scan compares byte
values, so it records `0, 1, 2` (and closes with `2`), whereas the on/off classification
changes only at `0` and `2`. -/
theorem load_reference_classify_counterexample :
    Raster ⟨OF_IMAGE_GRAYSCALE, 3, 1, [1, 2, 0]⟩ ∧
    ofxRleImage.load false ofxRleImage.new ⟨OF_IMAGE_GRAYSCALE, 3, 1, [1, 2, 0]⟩
      = some (⟨3, 1, [0, 1, 2, 2], []⟩, ⟨OF_IMAGE_GRAYSCALE, 3, 1, [1, 2, 0]⟩) ∧
    specEncode [1, 2, 0] = [0, 2] := by
  decide

/-- C1 (amended): with `useFastEncoding = false`, `load` on a raster of
`n = width * height` bytes leaves in `data` exactly the increasing list of the indices in
`[0, n)` whose byte value differs from the byte value before it (the byte before index `0`
being `0`), followed by the single value `n - 1` exactly when that list has odd length; on a
two-level raster this is the encoding the spec describes with the on/off classification. -/
theorem load_reference_transitions (self : ofxRleImage) (img : ofImage) (h : Raster img) :
    ∃ st, ofxRleImage.load false self img = some (st, img) ∧
      st.data =
        (if (byteTransitions img.pixels 0 (img.width * img.height)).length % 2 = 1 then
          byteTransitions img.pixels 0 (img.width * img.height) ++ [img.width * img.height - 1]
        else byteTransitions img.pixels 0 (img.width * img.height)) ∧
      (TwoLevel img.pixels → st.data = specEncode img.pixels) := by
  refine ⟨_, load_reference_eq self img h, ?_, ?_⟩
  · apply closeRun_eq _ _ (by have := h.2.2; omega)
    intro hne
    obtain ⟨i, hi⟩ := List.exists_mem_of_ne_nil _ hne
    have := (mem_byteTransitions _ _ _ _).1 hi
    omega
  · intro htl
    show closeRun _ _ = _
    rw [closeRun_eq _ _ (by have := h.2.2; omega)]
    · unfold specEncode
      rw [classTransitions_eq_of_twoLevel _ htl, h.2.1]
    · intro hne
      obtain ⟨i, hi⟩ := List.exists_mem_of_ne_nil _ hne
      have := (mem_byteTransitions _ _ _ _).1 hi
      omega

theorem load_reference_transitions_witness :
    Raster ⟨OF_IMAGE_GRAYSCALE, 4, 1, [0, 7, 7, 0]⟩ ∧
    ∃ st, ofxRleImage.load false ofxRleImage.new ⟨OF_IMAGE_GRAYSCALE, 4, 1, [0, 7, 7, 0]⟩
        = some (st, ⟨OF_IMAGE_GRAYSCALE, 4, 1, [0, 7, 7, 0]⟩) ∧
      st.data =
        (if (byteTransitions [0, 7, 7, 0] 0 (4 * 1)).length % 2 = 1 then
          byteTransitions [0, 7, 7, 0] 0 (4 * 1) ++ [4 * 1 - 1]
        else byteTransitions [0, 7, 7, 0] 0 (4 * 1)) ∧
      (TwoLevel [0, 7, 7, 0] → st.data = specEncode [0, 7, 7, 0]) :=
  ⟨by decide, load_reference_transitions ofxRleImage.new ⟨OF_IMAGE_GRAYSCALE, 4, 1, [0, 7, 7, 0]⟩
    (by decide)⟩

/-! ## Chunks -/

theorem leVal_eq_zero (l : List Nat) : leVal l = 0 ↔ ∀ b ∈ l, b = 0 := by
  induction l with
  | nil => simp [leVal]
  | cons b bs ih =>
    simp only [leVal, List.mem_cons, forall_eq_or_imp, ← ih]
    omega

theorem chunkVal_eq_zero (raw : List Nat) (c : Nat) :
    chunkVal raw c = 0 ↔ ∀ k, k < 8 → byteAt raw (8 * c + k) = 0 := by
  unfold chunkVal
  rw [leVal_eq_zero]
  simp [List.mem_map, List.mem_range]

theorem chunkVal_zero_byteAt (raw : List Nat) (c i : Nat) (h : chunkVal raw c = 0)
    (h1 : 8 * c ≤ i) (h2 : i < 8 * c + 8) : byteAt raw i = 0 := by
  have := (chunkVal_eq_zero raw c).1 h (i - 8 * c) (by omega)
  rwa [Nat.add_sub_cancel' h1] at this

theorem byteAt_zeroChunk (raw : List Nat) (c i : Nat) (h : 8 * c + 8 ≤ raw.length) :
    byteAt (zeroChunk raw c) i = if 8 * c ≤ i ∧ i < 8 * c + 8 then 0 else byteAt raw i := by
  unfold byteAt zeroChunk
  simp only [List.getD_eq_getElem?_getD, List.getElem?_append, List.getElem?_take,
    List.getElem?_drop, List.getElem?_replicate, List.length_append, List.length_take,
    List.length_replicate]
  have hmin : min (8 * c) raw.length = 8 * c := by omega
  rw [hmin]
  by_cases h1 : i < 8 * c
  · have h2 : i < 8 * c + 8 := by omega
    have h3 : ¬ (8 * c ≤ i) := by omega
    simp [h1, h2, h3]
  · by_cases h2 : i < 8 * c + 8
    · have h3 : i - 8 * c < 8 := by omega
      have h5 : 8 * c ≤ i := by omega
      simp [h1, h2, h3, h5]
    · have h3 : ¬ (i - 8 * c < 8) := by omega
      have h4 : 8 * c + 8 + (i - (8 * c + 8)) = i := by omega
      simp [h1, h2, h3, h4]

theorem length_zeroChunk (raw : List Nat) (c : Nat) (h : 8 * c + 8 ≤ raw.length) :
    (zeroChunk raw c).length = raw.length := by
  unfold zeroChunk
  simp only [List.length_append, List.length_take, List.length_replicate, List.length_drop]
  omega

theorem byteTransitions_congr (r1 r2 : List Nat) (lo k : Nat)
    (h : ∀ i, i < lo + k → byteAt r1 i = byteAt r2 i) :
    byteTransitions r1 lo k = byteTransitions r2 lo k := by
  unfold byteTransitions
  apply List.filter_congr
  intro i hi
  rw [List.mem_range'_1] at hi
  have e1 : byteAt r1 i = byteAt r2 i := h i hi.2
  have e2 : prevByte r1 i = prevByte r2 i := by
    unfold prevByte
    split
    · rfl
    · exact h _ (by omega)
  rw [e1, e2]

theorem byteTransitions_eq_nil (raw : List Nat) (lo k : Nat)
    (h : ∀ i, lo ≤ i → i < lo + k → byteAt raw i = 0) (hp : prevByte raw lo = 0) :
    byteTransitions raw lo k = [] := by
  unfold byteTransitions
  rw [List.filter_eq_nil_iff]
  intro i hi
  rw [List.mem_range'_1] at hi
  have e1 : byteAt raw i = 0 := h i hi.1 hi.2
  have e2 : prevByte raw i = 0 := by
    by_cases hlo : i = lo
    · rw [hlo]; exact hp
    · unfold prevByte
      split
      · rfl
      · exact h _ (by omega) (by omega)
  simp [e1, e2]

/-! ## The word-parallel scan -/

theorem fastStep_fold (raw : List Nat) (c nv b : Nat) (hb : b = 8 * (c - 1)) (a k : Nat)
    (hk : a + k ≤ 16) (data : List Nat) :
    (List.range' a k).foldl (fastStep raw c nv) (prevByte raw (b + a), data)
      = (prevByte raw (b + a + k), data ++ byteTransitions raw (b + a) k) := by
  induction k with
  | zero => simp [byteTransitions]
  | succ k ih =>
    rw [List.range'_concat, List.foldl_append, ih (by omega), byteTransitions_succ]
    have hlt : a + k < 8 + 8 := by omega
    have e1 : 8 * (c - 1) + (a + k) = b + a + k := by omega
    have e2 : (c - 1) * 8 + (a + k) = b + a + k := by omega
    simp only [List.foldl_cons, List.foldl_nil, fastStep, one_mul, hlt, if_true, e1, e2]
    rw [show b + a + (k + 1) = (b + a + k) + 1 by omega, prevByte_succ]
    by_cases hne : byteAt raw (b + a + k) = prevByte raw (b + a + k) <;> simp [hne]

theorem boundaryTransition_of_zero (raw : List Nat) (c : Nat) (h : chunkVal raw c = 0) :
    boundaryTransition raw c = [] := by
  unfold boundaryTransition
  have : byteAt raw (8 * c + 7) = 0 := chunkVal_zero_byteAt raw c _ h (by omega) (by omega)
  simp [this]

/-- What the body of the chunk loop appends for a chunk `c ≥ 1`. -/
theorem fastChunk_eq (raw : List Nat) (data : List Nat) (c : Nat) (hc : 1 ≤ c) :
    fastChunk raw data c = data ++
      (if chunkVal raw c ≠ 0 then byteTransitions raw (8 * c) 8 else []) ++
      boundaryTransition raw c := by
  unfold fastChunk
  by_cases hz : chunkVal raw c = 0
  · simp [hz, boundaryTransition_of_zero raw c hz]
  · simp only [ne_eq, hz, not_false_eq_true, if_true]
    rw [List.range'_concat, List.foldl_append]
    have hp : byteAt raw (8 * (c - 1) + (8 - 1)) = prevByte raw (8 * (c - 1) + 8) := by
      rw [prevByte_succ]
    rw [hp, fastStep_fold raw c _ (8 * (c - 1)) rfl 8 8 (by omega)]
    have e0 : 8 * (c - 1) + 8 = 8 * c := by omega
    have e1 : 8 * (c - 1) + (8 + 1 * 8) = 8 * c + 8 := by omega
    have e2 : (c - 1) * 8 + (8 + 1 * 8) = 8 * c + 8 := by omega
    have e3 : 8 * (c - 1) + 8 + 8 = 8 * c + 7 + 1 := by omega
    have hlt : ¬ (8 + 1 * 8 < 8 + 8) := by omega
    simp only [List.foldl_cons, List.foldl_nil, fastStep, e0, e1, e2, e3, hlt, if_false,
      prevByte_succ]
    unfold boundaryTransition
    by_cases hn : chunkVal raw (c + 1) = 0
    · have hz0 : byteAt raw (8 * c + 8) = 0 :=
        chunkVal_zero_byteAt raw (c + 1) _ hn (by omega) (by omega)
      by_cases h7 : byteAt raw (8 * c + 7) = 0
      · simp [hn, hz0, h7]
      · have h7b : ¬ (0 = byteAt raw (8 * c + 7)) := fun h => h7 h.symm
        simp [hn, hz0, h7, h7b]
    · simp [hn]

/-- The transitions inside chunk `c + 1` are the boundary transition recorded by the scan of
chunk `c` followed by what the scan of chunk `c + 1` records inside its own chunk. -/
theorem byteTransitions_chunk (raw : List Nat) (c : Nat) :
    byteTransitions raw (8 * (c + 1)) 8 = boundaryTransition raw c ++
      (if chunkVal raw (c + 1) ≠ 0 then byteTransitions raw (8 * (c + 1)) 8 else []) := by
  by_cases hn : chunkVal raw (c + 1) = 0
  · have hz : ∀ i, 8 * (c + 1) ≤ i → i < 8 * (c + 1) + 8 → byteAt raw i = 0 :=
      fun i h1 h2 => chunkVal_zero_byteAt raw (c + 1) i hn h1 h2
    rw [show (8 : Nat) = 1 + 7 by rfl, byteTransitions_add]
    rw [byteTransitions_eq_nil raw (8 * (c + 1) + 1) 7 (fun i h1 h2 => hz i (by omega) (by omega))
      (by rw [prevByte_succ]; exact hz _ (by omega) (by omega))]
    have e0 : byteAt raw (8 * (c + 1)) = 0 := hz _ (by omega) (by omega)
    have e1 : prevByte raw (8 * (c + 1)) = byteAt raw (8 * c + 7) := by
      rw [show 8 * (c + 1) = (8 * c + 7) + 1 by omega, prevByte_succ]
    unfold boundaryTransition
    rw [show (1 : Nat) = 0 + 1 by rfl, byteTransitions_succ]
    have e2 : (1 : Nat) + 7 = 8 := rfl
    by_cases h7 : byteAt raw (8 * c + 7) = 0
    · simp [byteTransitions, hn, e0, e1, h7]
    · have h7b : ¬ (0 = byteAt raw (8 * c + 7)) := fun h => h7 h.symm
      simp [byteTransitions, hn, e0, e1, h7, h7b]
      omega
  · have hb : boundaryTransition raw c = [] := by
      unfold boundaryTransition; simp [hn]
    simp [hn, hb]

/-- Loop invariant of `while (curChunk < lastChunk)`: after the chunks `1, ..., m`, `data`
holds every transition below `8 * (m + 1)` and the boundary transition of chunk `m`. -/
theorem fastScan_fold (raw : List Nat) (h0 : chunkVal raw 0 = 0) (m : Nat) :
    (List.range' 1 m).foldl (fastChunk raw) []
      = byteTransitions raw 0 (8 * (m + 1)) ++ boundaryTransition raw m := by
  induction m with
  | zero =>
    rw [boundaryTransition_of_zero raw 0 h0]
    rw [byteTransitions_eq_nil raw 0 _
      (fun i h1 h2 => chunkVal_zero_byteAt raw 0 i h0 (by omega) (by omega)) (by simp [prevByte])]
    simp
  | succ m ih =>
    rw [List.range'_concat, List.foldl_append, ih]
    simp only [List.foldl_cons, List.foldl_nil, one_mul]
    rw [fastChunk_eq raw _ (1 + m) (by omega)]
    rw [show 8 * (m + 1 + 1) = 8 * (m + 1) + 8 by omega, byteTransitions_add, zero_add]
    rw [show 1 + m = m + 1 by omega]
    conv_rhs => rw [byteTransitions_chunk raw m]
    simp only [List.append_assoc]

/-- The word-parallel scan of a buffer whose chunks `0` and `lastChunk` are zero records
exactly the byte transitions below the end of chunk `lastChunk`. -/
theorem fastScan_eq (raw : List Nat) (l : Nat) (h0 : chunkVal raw 0 = 0)
    (hl : chunkVal raw l = 0) :
    fastScan raw l = byteTransitions raw 0 (8 * l + 8) := by
  unfold fastScan
  rw [fastScan_fold raw h0]
  rcases Nat.eq_zero_or_pos l with rfl | hpos
  · rw [boundaryTransition_of_zero raw 0 h0]
    simp
  · obtain ⟨m, rfl⟩ : ∃ m, l = m + 1 := ⟨l - 1, by omega⟩
    rw [byteTransitions_add, zero_add,
      byteTransitions_chunk raw m]
    simp [hl]

/-! ## The word-parallel branch of `load` -/

theorem lastChunk_int (n : Nat) (h : 8 ≤ n) :
    ((n : Int).tdiv 8 - 1) = ((lastChunkOf n : Nat) : Int) := by
  have h1 : (n : Int).tdiv 8 = ((n / 8 : Nat) : Int) := rfl
  have h2 : 1 ≤ n / 8 := (Nat.one_le_div_iff (by omega)).2 h
  unfold lastChunkOf
  rw [h1]
  omega

theorem lastChunkOf_bound (n : Nat) (h : 8 ≤ n) :
    8 * lastChunkOf n + 8 ≤ n ∧ n < 8 * lastChunkOf n + 16 := by
  unfold lastChunkOf
  have h2 : 1 ≤ n / 8 := (Nat.one_le_div_iff (by omega)).2 h
  omega

/-- The word-parallel branch of `load` on a raster of at least eight bytes, in closed
form. -/
theorem load_fast_eq (self : ofxRleImage) (img : ofImage) (h : Raster img)
    (h8 : 8 ≤ img.width * img.height) :
    ofxRleImage.load true self img = some
      (⟨img.width % 2 ^ 32, img.height % 2 ^ 32,
        closeRun (fastScan (zeroedWords img.pixels (img.width * img.height))
            (lastChunkOf (img.width * img.height)))
          ((img.width * img.height : Nat) : Int), self.lines⟩,
       { img with pixels := zeroedWords img.pixels (img.width * img.height) }) := by
  have hlen := h.2.1
  have hb := lastChunkOf_bound _ h8
  have w1 : writeChunk img.pixels 0 = some (zeroChunk img.pixels 0) := by
    unfold writeChunk
    rw [if_pos]
    · rfl
    · constructor
      · exact le_refl _
      · simp only [Int.toNat_zero]; omega
  have w2 : writeChunk (zeroChunk img.pixels 0)
      ((lastChunkOf (img.width * img.height) : Nat) : Int)
      = some (zeroedWords img.pixels (img.width * img.height)) := by
    unfold writeChunk
    rw [if_pos]
    · simp [zeroedWords]
    · constructor
      · exact Int.ofNat_nonneg _
      · rw [Int.toNat_ofNat, length_zeroChunk _ _ (by omega)]
        omega
  unfold ofxRleImage.load
  rw [if_pos h.1]
  simp only [raster_nPixels img h, lastChunk_int _ h8, w1, w2, if_true, Int.toNat_ofNat]

theorem byteAt_zeroedWords (raw : List Nat) (n i : Nat) (hlen : raw.length = n) (h8 : 8 ≤ n) :
    byteAt (zeroedWords raw n) i =
      if i < 8 ∨ (8 * lastChunkOf n ≤ i ∧ i < 8 * lastChunkOf n + 8) then 0 else byteAt raw i := by
  have hb := lastChunkOf_bound n h8
  unfold zeroedWords
  rw [byteAt_zeroChunk _ _ _ (by rw [length_zeroChunk _ _ (by omega)]; omega),
    byteAt_zeroChunk _ _ _ (by omega)]
  by_cases h1 : i < 8
  · have : 8 * 0 ≤ i ∧ i < 8 * 0 + 8 := by omega
    simp [h1]
  · have : ¬ (8 * 0 ≤ i ∧ i < 8 * 0 + 8) := by omega
    simp [h1]

theorem length_zeroedWords (raw : List Nat) (n : Nat) (hlen : raw.length = n) (h8 : 8 ≤ n) :
    (zeroedWords raw n).length = raw.length := by
  have hb := lastChunkOf_bound n h8
  unfold zeroedWords
  rw [length_zeroChunk _ _ (by rw [length_zeroChunk _ _ (by omega)]; omega),
    length_zeroChunk _ _ (by omega)]

theorem chunkVal_zeroedWords_first (raw : List Nat) (n : Nat) (hlen : raw.length = n)
    (h8 : 8 ≤ n) : chunkVal (zeroedWords raw n) 0 = 0 := by
  rw [chunkVal_eq_zero]
  intro k hk
  rw [byteAt_zeroedWords raw n _ hlen h8, if_pos (by omega)]

theorem chunkVal_zeroedWords_last (raw : List Nat) (n : Nat) (hlen : raw.length = n)
    (h8 : 8 ≤ n) : chunkVal (zeroedWords raw n) (lastChunkOf n) = 0 := by
  rw [chunkVal_eq_zero]
  intro k hk
  rw [byteAt_zeroedWords raw n _ hlen h8, if_pos (by omega)]

/-- The word-parallel scan records the byte transitions of the buffer it has cleared the two
words of, up to the end of the last full word. -/
theorem fastScan_zeroedWords (raw : List Nat) (n : Nat) (hlen : raw.length = n) (h8 : 8 ≤ n) :
    fastScan (zeroedWords raw n) (lastChunkOf n)
      = byteTransitions (zeroedWords raw n) 0 (8 * lastChunkOf n + 8) :=
  fastScan_eq _ _ (chunkVal_zeroedWords_first raw n hlen h8)
    (chunkVal_zeroedWords_last raw n hlen h8)

/-- When the first word and every byte from the last full word on are zero already, the
word-parallel scan records the byte transitions of the whole buffer. -/
theorem fastScan_of_zero_ends (raw : List Nat) (n : Nat) (hlen : raw.length = n) (h8 : 8 ≤ n)
    (hfirst : ∀ i, i < 8 → byteAt raw i = 0)
    (hlast : ∀ i, i < n → 8 * lastChunkOf n ≤ i → byteAt raw i = 0) :
    fastScan (zeroedWords raw n) (lastChunkOf n) = byteTransitions raw 0 n := by
  have hb := lastChunkOf_bound n h8
  have hsame : ∀ i, byteAt (zeroedWords raw n) i = byteAt raw i := by
    intro i
    rw [byteAt_zeroedWords raw n i hlen h8]
    split
    · rename_i hc
      rcases hc with hc | hc
      · exact (hfirst i hc).symm
      · exact (hlast i (by omega) hc.1).symm
    · rfl
  rw [fastScan_zeroedWords raw n hlen h8, byteTransitions_congr _ raw _ _ (fun i _ => hsame i)]
  obtain ⟨r, hr⟩ : ∃ r, n = (8 * lastChunkOf n + 8) + r := ⟨n - (8 * lastChunkOf n + 8), by omega⟩
  conv_rhs => rw [hr, byteTransitions_add, zero_add]
  rw [byteTransitions_eq_nil raw (8 * lastChunkOf n + 8) r
    (fun i h1 h2 => hlast i (by omega) (by omega))
    (by rw [show 8 * lastChunkOf n + 8 = (8 * lastChunkOf n + 7) + 1 by omega, prevByte_succ]
        exact hlast _ (by omega) (by omega))]
  simp

/-! ## C2 -/

/-- C2, as stated, fails: the 9x1 raster with the single non-zero byte at index `8` has its
first word and its last full word (both are bytes `[0, 8)`) all zero, yet the word-parallel
branch never looks at byte `8` and leaves `data` empty, while the per-byte branch records
`[8, 8]`. -/
theorem load_strategies_tail_counterexample :
    Raster ⟨OF_IMAGE_GRAYSCALE, 9, 1, [0, 0, 0, 0, 0, 0, 0, 0, 1]⟩ ∧ 8 < 9 * 1 ∧
    (∀ i, i < 8 → byteAt [0, 0, 0, 0, 0, 0, 0, 0, 1] i = 0) ∧
    (∀ i, i < 8 * (9 * 1 / 8) → 8 * (9 * 1 / 8 - 1) ≤ i →
      byteAt [0, 0, 0, 0, 0, 0, 0, 0, 1] i = 0) ∧
    (ofxRleImage.load true ofxRleImage.new
        ⟨OF_IMAGE_GRAYSCALE, 9, 1, [0, 0, 0, 0, 0, 0, 0, 0, 1]⟩).map (fun r => r.1.data)
      = some [] ∧
    (ofxRleImage.load false ofxRleImage.new
        ⟨OF_IMAGE_GRAYSCALE, 9, 1, [0, 0, 0, 0, 0, 0, 0, 0, 1]⟩).map (fun r => r.1.data)
      = some [8, 8] := by
  decide

/-- C2 (amended): for every raster with `n = width * height` greater than one 8-byte word
whose first word (bytes `[0, 8)`) and whose bytes from the start of the last full word to the
end of the buffer (bytes `[8 * (n / 8 - 1), n)`) are all zero, `load` with
`useFastEncoding = true` and `load` with `useFastEncoding = false` both complete and leave
identical transition index sequences. -/
theorem load_strategies_agree (self : ofxRleImage) (img : ofImage) (h : Raster img)
    (h8 : 8 < img.width * img.height)
    (hfirst : ∀ i, i < 8 → byteAt img.pixels i = 0)
    (hlast : ∀ i, i < img.width * img.height → 8 * (img.width * img.height / 8 - 1) ≤ i →
      byteAt img.pixels i = 0) :
    ∃ sf sr imgf imgr, ofxRleImage.load true self img = some (sf, imgf) ∧
      ofxRleImage.load false self img = some (sr, imgr) ∧ sf.data = sr.data := by
  refine ⟨_, _, _, _, load_fast_eq self img h (by omega), load_reference_eq self img h, ?_⟩
  show closeRun _ _ = closeRun _ _
  rw [fastScan_of_zero_ends img.pixels _ h.2.1 (by omega) hfirst hlast]

theorem load_strategies_agree_witness :
    Raster ⟨OF_IMAGE_GRAYSCALE, 6, 4,
      [0, 0, 0, 0, 0, 0, 0, 0, 0, 5, 5, 0, 0, 0, 0, 9, 0, 0, 0, 0, 0, 0, 0, 0]⟩ ∧
    ∃ sf sr imgf imgr,
      ofxRleImage.load true ofxRleImage.new ⟨OF_IMAGE_GRAYSCALE, 6, 4,
        [0, 0, 0, 0, 0, 0, 0, 0, 0, 5, 5, 0, 0, 0, 0, 9, 0, 0, 0, 0, 0, 0, 0, 0]⟩
        = some (sf, imgf) ∧
      ofxRleImage.load false ofxRleImage.new ⟨OF_IMAGE_GRAYSCALE, 6, 4,
        [0, 0, 0, 0, 0, 0, 0, 0, 0, 5, 5, 0, 0, 0, 0, 9, 0, 0, 0, 0, 0, 0, 0, 0]⟩
        = some (sr, imgr) ∧ sf.data = sr.data :=
  ⟨by decide, load_strategies_agree ofxRleImage.new ⟨OF_IMAGE_GRAYSCALE, 6, 4,
      [0, 0, 0, 0, 0, 0, 0, 0, 0, 5, 5, 0, 0, 0, 0, 9, 0, 0, 0, 0, 0, 0, 0, 0]⟩
    (by decide) (by decide) (by decide) (by decide)⟩

/-! ## C3 -/

theorem closeRun_length_even (data : List Nat) (nPixels : Int) :
    (closeRun data nPixels).length % 2 = 0 := by
  unfold closeRun
  split
  · rw [List.length_append, List.length_singleton]; omega
  · omega

/-- On a raster of fewer than eight bytes the chunk loop has no iteration, whatever the
buffer holds: the sequence computed after the two word stores is empty. -/
theorem fastScan_small (raw : List Nat) (n : Nat) (hn : n < 8) :
    closeRun (fastScan raw (((n : Nat) : Int).tdiv 8 - 1).toNat) ((n : Nat) : Int) = [] := by
  have h1 : ((n : Nat) : Int).tdiv 8 = ((n / 8 : Nat) : Int) := rfl
  have h2 : n / 8 = 0 := Nat.div_eq_of_lt hn
  rw [h1, h2]
  rfl

/-- C3: for every raster and for either strategy (`useFastEncoding` true or false), the
transition index sequence left in `data` by `load(ofImage&)` has even length: every
completed call ends in the closing step of lines 79-82.  The call completes for every raster
with the per-byte strategy and for every raster of at least eight bytes with the
word-parallel one; on a smaller raster the two word stores fall outside the buffer, and the
sequence computed after them is empty. -/
theorem load_data_even (useFastEncoding : Bool) (self : ofxRleImage) (img : ofImage)
    (h : Raster img) :
    (∀ st img1, ofxRleImage.load useFastEncoding self img = some (st, img1) →
      st.data.length % 2 = 0) ∧
    ((useFastEncoding = false ∨ 8 ≤ img.width * img.height) →
      ∃ st img1, ofxRleImage.load useFastEncoding self img = some (st, img1)) ∧
    (img.width * img.height < 8 → ∀ raw : List Nat,
      closeRun (fastScan raw (((img.width * img.height : Nat) : Int).tdiv 8 - 1).toNat)
        ((img.width * img.height : Nat) : Int) = []) := by
  refine ⟨?_, ?_, fun hn raw => fastScan_small raw _ hn⟩
  · intro st img1 hload
    unfold ofxRleImage.load at hload
    rw [if_pos h.1] at hload
    cases useFastEncoding with
    | false =>
      simp only [Bool.false_eq_true, if_false, Option.some.injEq, Prod.mk.injEq] at hload
      rw [← hload.1]
      exact closeRun_length_even _ _
    | true =>
      simp only [if_true] at hload
      split at hload
      · exact absurd hload (by simp)
      · split at hload
        · exact absurd hload (by simp)
        · simp only [Option.some.injEq, Prod.mk.injEq] at hload
          rw [← hload.1]
          exact closeRun_length_even _ _
  · intro hc
    cases useFastEncoding with
    | false => exact ⟨_, _, load_reference_eq self img h⟩
    | true =>
      rcases hc with hc | hc
      · exact absurd hc (by simp)
      · exact ⟨_, _, load_fast_eq self img h hc⟩

theorem load_data_even_witness :
    Raster ⟨OF_IMAGE_GRAYSCALE, 6, 4,
          [0, 0, 0, 0, 0, 0, 0, 0, 0, 5, 5, 0, 0, 0, 0, 9, 0, 0, 0, 0, 0, 0, 0, 0]⟩ ∧
    ((∀ st img1, ofxRleImage.load true ofxRleImage.new
        ⟨OF_IMAGE_GRAYSCALE, 6, 4,
          [0, 0, 0, 0, 0, 0, 0, 0, 0, 5, 5, 0, 0, 0, 0, 9, 0, 0, 0, 0, 0, 0, 0, 0]⟩
        = some (st, img1) → st.data.length % 2 = 0) ∧
    ((true = false ∨ 8 ≤ 6 * 4) →
      ∃ st img1, ofxRleImage.load true ofxRleImage.new
        ⟨OF_IMAGE_GRAYSCALE, 6, 4,
          [0, 0, 0, 0, 0, 0, 0, 0, 0, 5, 5, 0, 0, 0, 0, 9, 0, 0, 0, 0, 0, 0, 0, 0]⟩
        = some (st, img1)) ∧
    (6 * 4 < 8 → ∀ raw : List Nat,
      closeRun (fastScan raw (((6 * 4 : Nat) : Int).tdiv 8 - 1).toNat)
        ((6 * 4 : Nat) : Int) = [])) :=
  ⟨by decide, load_data_even true ofxRleImage.new
    ⟨OF_IMAGE_GRAYSCALE, 6, 4,
          [0, 0, 0, 0, 0, 0, 0, 0, 0, 5, 5, 0, 0, 0, 0, 9, 0, 0, 0, 0, 0, 0, 0, 0]⟩ (by decide)⟩

/-! ## The stream operators -/

theorem leVal_toBytes32 (x : Nat) (h : x < 2 ^ 32) : leVal (toBytes32 x) = x := by
  unfold toBytes32
  simp only [leVal]
  omega

theorem length_resize (data : List Nat) (k : Nat) : (resize data k).length = k := by
  unfold resize
  simp only [List.length_append, List.length_take, List.length_replicate]
  omega

theorem bridgePoints_succ (width r0 k : Nat) :
    bridgePoints width r0 (k + 1)
      = ⟨width, r0⟩ :: ⟨0, r0 + 1⟩ :: bridgePoints width (r0 + 1) k := by
  unfold bridgePoints
  rw [List.range'_succ, List.flatMap_cons]
  rfl

theorem bridgeRows_eq (width y : Nat) (fuel : Nat) :
    ∀ (prevRow : Nat) (lines : List RlePoint2d), fuel = y - prevRow →
      bridgeRows width y fuel (prevRow, lines)
        = (max prevRow y, lines ++ bridgePoints width prevRow (y - prevRow)) := by
  induction fuel with
  | zero =>
    intro prevRow lines hf
    rw [← hf]
    simp only [bridgeRows, bridgePoints, List.range'_zero, List.flatMap_nil, List.append_nil]
    rw [max_eq_left (by omega)]
  | succ fuel ih =>
    intro prevRow lines hf
    have hlt : prevRow < y := by omega
    rw [bridgeRows, if_pos hlt, ih (prevRow + 1) _ (by omega), ← hf, bridgePoints_succ,
      show y - (prevRow + 1) = fuel by omega]
    rw [max_eq_right (by omega), max_eq_right (by omega)]
    simp

/-- The two iterations of the loop for a pair `(s, e)` at an even position. -/
theorem updateLoop_pair (width s e : Nat) (rest : List Nat) (i : Nat) (hi : i % 2 = 0)
    (st : Nat × List RlePoint2d) :
    updateLoop width (s :: e :: rest) i st
      = updateLoop width rest (i + 1 + 1) (e / width, st.2 ++ pairPoints width s e) := by
  have h1 : ¬ (i % 2 = 1) := by omega
  have h2 : (i + 1) % 2 = 1 := by omega
  simp only [updateLoop, updateStep, h1, h2, if_true, if_false]
  rw [bridgeRows_eq width (e / width) _ (s / width) _ rfl]
  simp [pairPoints]

theorem updateLoop_parity (width : Nat) (data : List Nat) :
    ∀ (i j : Nat) (st : Nat × List RlePoint2d), i % 2 = j % 2 →
      updateLoop width data i st = updateLoop width data j st := by
  induction data with
  | nil => intro i j st _; rfl
  | cons x xs ih =>
    intro i j st hij
    simp only [updateLoop, updateStep, hij]
    exact ih (i + 1) (j + 1) _ (by omega)

theorem updateLoop_append (width : Nat) (a b : List Nat) :
    ∀ (i : Nat) (st : Nat × List RlePoint2d),
      updateLoop width (a ++ b) i st
        = updateLoop width b (i + a.length) (updateLoop width a i st) := by
  induction a with
  | nil => intro i st; rfl
  | cons x xs ih =>
    intro i st
    rw [List.cons_append, List.length_cons]
    show updateLoop width (xs ++ b) (i + 1) (updateStep width i x st) = _
    rw [ih, show i + 1 + xs.length = i + (xs.length + 1) by omega]
    rfl

/-- At an even position the points produced for the remaining data do not depend on the
state: they are appended to the points already there. -/
theorem updateLoop_even_lines (width : Nat) :
    ∀ (data : List Nat) (i : Nat) (st : Nat × List RlePoint2d), i % 2 = 0 →
      (updateLoop width data i st).2 = st.2 ++ reconstruct width data
  | [], i, st, _ => by simp [updateLoop, reconstruct]
  | [x], i, st, hi => by
    have h1 : ¬ (i % 2 = 1) := by omega
    simp [updateLoop, updateStep, reconstruct, h1]
  | s :: e :: rest, i, st, hi => by
    unfold reconstruct
    rw [updateLoop_pair width s e rest i hi, updateLoop_pair width s e rest 0 rfl,
      updateLoop_even_lines width rest (i + 1 + 1) _ (by omega),
      updateLoop_even_lines width rest (0 + 1 + 1) _ rfl]
    simp

theorem reconstruct_pair_cons (width s e : Nat) (rest : List Nat) :
    reconstruct width (s :: e :: rest) = pairPoints width s e ++ reconstruct width rest := by
  unfold reconstruct
  rw [updateLoop_pair width s e rest 0 rfl, updateLoop_even_lines width rest _ _ rfl]
  simp [reconstruct]

/-- Pairs are reconstructed independently. -/
theorem reconstruct_append (width : Nat) (a b : List Nat) (ha : a.length % 2 = 0) :
    reconstruct width (a ++ b) = reconstruct width a ++ reconstruct width b := by
  unfold reconstruct
  rw [updateLoop_append, updateLoop_even_lines width b _ _ (by omega)]
  rfl

theorem reconstruct_nil (width : Nat) : reconstruct width [] = [] := rfl

theorem update_eq (self : ofxRleImage) (hw : 0 < self.width) :
    self.update = some { self with lines := reconstruct self.width self.data } := by
  unfold ofxRleImage.update
  rw [if_neg]
  intro hc
  omega

/-! ## Rows of the reconstructed points -/

theorem bridgePoints_y (width : Nat) (k : Nat) :
    ∀ (r0 : Nat) (p : RlePoint2d), p ∈ bridgePoints width r0 k → r0 ≤ p.y ∧ p.y ≤ r0 + k := by
  induction k with
  | zero => intro r0 p hp; simp [bridgePoints] at hp
  | succ k ih =>
    intro r0 p hp
    rw [bridgePoints_succ, List.mem_cons, List.mem_cons] at hp
    rcases hp with rfl | rfl | hp
    · simp
    · simp
    · have := ih (r0 + 1) p hp
      omega

theorem bridgePoints_pairwise (width : Nat) (k : Nat) :
    ∀ (r0 : Nat), (bridgePoints width r0 k).Pairwise (fun p q => p.y ≤ q.y) := by
  induction k with
  | zero => intro r0; simp [bridgePoints]
  | succ k ih =>
    intro r0
    rw [bridgePoints_succ, List.pairwise_cons, List.pairwise_cons]
    refine ⟨?_, ?_, ih (r0 + 1)⟩
    · intro q hq
      rw [List.mem_cons] at hq
      rcases hq with rfl | hq
      · simp
      · have := bridgePoints_y width k (r0 + 1) q hq
        simp only
        omega
    · intro q hq
      have := bridgePoints_y width k (r0 + 1) q hq
      simp only
      omega

theorem pairPoints_y (width s e : Nat) (hse : s ≤ e) (p : RlePoint2d)
    (hp : p ∈ pairPoints width s e) : s / width ≤ p.y ∧ p.y ≤ e / width := by
  have hrow : s / width ≤ e / width := Nat.div_le_div_right hse
  unfold pairPoints at hp
  simp only [List.mem_append, List.mem_singleton] at hp
  rcases hp with (rfl | hp) | rfl
  · exact ⟨le_refl _, hrow⟩
  · have := bridgePoints_y width _ _ p hp
    omega
  · exact ⟨hrow, le_refl _⟩

theorem pairPoints_pairwise (width s e : Nat) (hse : s ≤ e) :
    (pairPoints width s e).Pairwise (fun p q => p.y ≤ q.y) := by
  have hrow : s / width ≤ e / width := Nat.div_le_div_right hse
  unfold pairPoints
  rw [List.pairwise_append, List.pairwise_append]
  refine ⟨⟨List.pairwise_singleton _ _, bridgePoints_pairwise width _ _, ?_⟩,
    List.pairwise_singleton _ _, ?_⟩
  · intro a ha b hb
    rw [List.mem_singleton] at ha
    subst ha
    exact (bridgePoints_y width _ _ b hb).1
  · intro a ha b hb
    rw [List.mem_singleton] at hb
    subst hb
    rw [List.mem_append, List.mem_singleton] at ha
    rcases ha with rfl | ha
    · exact hrow
    · have := bridgePoints_y width _ _ a ha
      simp only
      omega

/-- On a non-decreasing sequence of even length the rows never decrease, and no row lies
below the row of a lower bound of the indices. -/
theorem reconstruct_rows (width : Nat) :
    ∀ (data : List Nat), data.length % 2 = 0 → data.Pairwise (· ≤ ·) →
      (reconstruct width data).Pairwise (fun p q => p.y ≤ q.y) ∧
      ∀ m, (∀ x ∈ data, m ≤ x) → ∀ p ∈ reconstruct width data, m / width ≤ p.y
  | [], _, _ => by simp [reconstruct_nil]
  | [x], hlen, _ => by simp at hlen
  | s :: e :: rest, hlen, hs => by
    rw [List.pairwise_cons, List.pairwise_cons] at hs
    obtain ⟨hs1, hs2, hs3⟩ := hs
    have hse : s ≤ e := hs1 e (List.mem_cons_self _ _)
    have hrec := reconstruct_rows width rest
      (by simp only [List.length_cons] at hlen; omega) hs3
    rw [reconstruct_pair_cons]
    constructor
    · rw [List.pairwise_append]
      refine ⟨pairPoints_pairwise width s e hse, hrec.1, ?_⟩
      intro a ha b hb
      have h1 := (pairPoints_y width s e hse a ha).2
      have h2 := hrec.2 e hs2 b hb
      omega
    · intro m hm p hp
      rw [List.mem_append] at hp
      have hms : m ≤ s := hm s (List.mem_cons_self _ _)
      rcases hp with hp | hp
      · have h1 := (pairPoints_y width s e hse p hp).1
        have h2 : m / width ≤ s / width := Nat.div_le_div_right hms
        omega
      · exact hrec.2 m (fun x hx => hm x (List.mem_cons_of_mem _ (List.mem_cons_of_mem _ hx))) p hp

/-! ## C5 -/

/-- C5: for every width > 0 and every pair `(s, e)` of consecutive indices at the positions
`(2k, 2k + 1)` with `r0 = s / width ≤ r1 = e / width`, `update()` completes and the points it
emits for that pair, between the points of the earlier and of the later indices, are exactly
`(s % width, r0)`, then for each row `r = r0, ..., r1 - 1` in increasing order the two points
`(width, r)` and `(0, r + 1)`, then `(e % width, r1)`; when `r0 = r1` these are exactly the
two endpoints. -/
theorem update_pair_points (self : ofxRleImage) (before after : List Nat) (s e : Nat)
    (hw : 0 < self.width) (hdata : self.data = before ++ s :: e :: after)
    (hpos : before.length % 2 = 0) (_hrow : s / self.width ≤ e / self.width) :
    ∃ r, self.update = some r ∧
      r.lines = reconstruct self.width before ++
        ([⟨s % self.width, s / self.width⟩] ++
          (List.range' (s / self.width) (e / self.width - s / self.width)).flatMap
            (fun row => [⟨self.width, row⟩, ⟨0, row + 1⟩]) ++
          [⟨e % self.width, e / self.width⟩]) ++
        reconstruct self.width after ∧
      (s / self.width = e / self.width →
        r.lines = reconstruct self.width before ++
          [⟨s % self.width, s / self.width⟩, ⟨e % self.width, e / self.width⟩] ++
          reconstruct self.width after) := by
  have hlines : reconstruct self.width self.data = reconstruct self.width before ++
      pairPoints self.width s e ++ reconstruct self.width after := by
    rw [hdata, reconstruct_append _ _ _ hpos, reconstruct_pair_cons, List.append_assoc]
  refine ⟨_, update_eq self hw, ?_, ?_⟩
  · exact hlines
  · intro heq
    show reconstruct self.width self.data = _
    rw [hlines]
    simp [pairPoints, bridgePoints, heq]

theorem update_pair_points_witness :
    ∃ r, ofxRleImage.update ⟨4, 4, [1, 3, 6, 13], []⟩ = some r ∧
      r.lines = reconstruct 4 [1, 3] ++
        ([⟨6 % 4, 6 / 4⟩] ++
          (List.range' (6 / 4) (13 / 4 - 6 / 4)).flatMap
            (fun row => [⟨4, row⟩, ⟨0, row + 1⟩]) ++
          [⟨13 % 4, 13 / 4⟩]) ++
        reconstruct 4 [] ∧
      (6 / 4 = 13 / 4 →
        r.lines = reconstruct 4 [1, 3] ++ [⟨6 % 4, 6 / 4⟩, ⟨13 % 4, 13 / 4⟩] ++
          reconstruct 4 []) :=
  update_pair_points ⟨4, 4, [1, 3, 6, 13], []⟩ [1, 3] [] 6 13 (by decide) rfl (by decide)
    (by decide)

/-! ## C6 -/

/-- C6: for every width > 0 and every even-length, non-decreasing index sequence, `update()`
completes and the row `y` of every point it emits is greater than or equal to the row of the
point emitted immediately before it, the synthesized bridging points included. -/
theorem update_rows_monotone (self : ofxRleImage) (hw : 0 < self.width)
    (heven : self.data.length % 2 = 0) (hsorted : self.data.Chain' (· ≤ ·)) :
    ∃ r, self.update = some r ∧ r.lines.Chain' (fun p q => p.y ≤ q.y) := by
  refine ⟨_, update_eq self hw, ?_⟩
  have hp : self.data.Pairwise (· ≤ ·) := List.chain'_iff_pairwise.1 hsorted
  exact (reconstruct_rows self.width self.data heven hp).1.chain'

theorem update_rows_monotone_witness :
    ∃ r, ofxRleImage.update ⟨4, 4, [1, 3, 6, 13], []⟩ = some r ∧
      r.lines.Chain' (fun p q => p.y ≤ q.y) :=
  update_rows_monotone ⟨4, 4, [1, 3, 6, 13], []⟩ (by decide) (by decide) (by simp)

/-! ## Runs -/

theorem inRuns_iff : ∀ (data : List Nat) (i : Nat),
    inRuns data i ↔ ∃ k s e, data[2 * k]? = some s ∧ data[2 * k + 1]? = some e ∧ s ≤ i ∧ i < e
  | [], i => by simp [inRuns]
  | [x], i => by
    simp only [inRuns, false_iff]
    rintro ⟨k, s, e, _, h2, _⟩
    simp at h2
  | s :: e :: rest, i => by
    rw [inRuns, inRuns_iff rest i]
    constructor
    · rintro (h | ⟨k, s1, e1, h1, h2, h3⟩)
      · exact ⟨0, s, e, by simp, by simp, h.1, h.2⟩
      · refine ⟨k + 1, s1, e1, ?_, ?_, h3⟩
        · rw [show 2 * (k + 1) = 2 * k + 1 + 1 by omega]; simpa using h1
        · rw [show 2 * (k + 1) + 1 = (2 * k + 1) + 1 + 1 by omega]; simpa using h2
    · rintro ⟨k, s1, e1, h1, h2, h3⟩
      cases k with
      | zero =>
        simp only [Nat.mul_zero, List.getElem?_cons_zero, Option.some.injEq, Nat.zero_add,
          List.getElem?_cons_succ] at h1 h2
        subst h1 h2
        exact Or.inl h3
      | succ k =>
        right
        refine ⟨k, s1, e1, ?_, ?_, h3⟩
        · rw [show 2 * (k + 1) = 2 * k + 1 + 1 by omega] at h1; simpa using h1
        · rw [show 2 * (k + 1) + 1 = (2 * k + 1) + 1 + 1 by omega] at h2; simpa using h2

theorem inRuns_exists_gt : ∀ (data : List Nat) (i : Nat), inRuns data i → ∃ e ∈ data, i < e
  | [], i, h => by simp [inRuns] at h
  | [x], i, h => by simp [inRuns] at h
  | s :: e :: rest, i, h => by
    rw [inRuns] at h
    rcases h with h | h
    · exact ⟨e, by simp, h.2⟩
    · obtain ⟨x, hx, hlt⟩ := inRuns_exists_gt rest i h
      exact ⟨x, by simp [hx], hlt⟩

theorem inRuns_exists_le : ∀ (data : List Nat) (i : Nat), inRuns data i → ∃ s ∈ data, s ≤ i
  | [], i, h => by simp [inRuns] at h
  | [x], i, h => by simp [inRuns] at h
  | s :: e :: rest, i, h => by
    rw [inRuns] at h
    rcases h with h | h
    · exact ⟨s, by simp, h.1⟩
    · obtain ⟨x, hx, hle⟩ := inRuns_exists_le rest i h
      exact ⟨x, by simp [hx], hle⟩

/-- In a non-decreasing sequence of even length, `i` lies in a pair's span exactly when an
odd number of elements are at most `i`. -/
theorem inRuns_iff_odd_count : ∀ (data : List Nat) (i : Nat), data.length % 2 = 0 →
    data.Pairwise (· ≤ ·) →
    (inRuns data i ↔ (data.filter (fun x => decide (x ≤ i))).length % 2 = 1)
  | [], i, _, _ => by simp [inRuns]
  | [x], i, hlen, _ => by simp at hlen
  | s :: e :: rest, i, hlen, hs => by
    rw [List.pairwise_cons, List.pairwise_cons] at hs
    obtain ⟨hs1, hs2, hs3⟩ := hs
    have hse : s ≤ e := hs1 e (List.mem_cons_self _ _)
    have ih := inRuns_iff_odd_count rest i
      (by simp only [List.length_cons] at hlen; omega) hs3
    rw [inRuns]
    by_cases he : e ≤ i
    · have hsi : s ≤ i := le_trans hse he
      have h1 : ¬ (s ≤ i ∧ i < e) := by omega
      simp only [h1, false_or, ih, List.filter_cons, hsi, he, decide_True, if_true,
        List.length_cons]
      omega
    · have hrest : rest.filter (fun x => decide (x ≤ i)) = [] := by
        rw [List.filter_eq_nil_iff]
        intro x hx
        have := hs2 x hx
        simp only [decide_eq_true_eq]
        omega
      have hnot : ¬ inRuns rest i := by
        intro hin
        obtain ⟨x, hx, hle⟩ := inRuns_exists_le rest i hin
        have := hs2 x hx
        omega
      by_cases hsi : s ≤ i
      · have h1 : s ≤ i ∧ i < e := ⟨hsi, by omega⟩
        simp [h1, List.filter_cons, hsi, he, hrest]
      · have h1 : ¬ (s ≤ i ∧ i < e) := by omega
        simp [h1, hnot, List.filter_cons, hsi, he, hrest]

theorem byteTransitions_filter_le (raw : List Nat) (n i : Nat) (hi : i < n) :
    (byteTransitions raw 0 n).filter (fun x => decide (x ≤ i)) = byteTransitions raw 0 (i + 1) := by
  obtain ⟨r, rfl⟩ : ∃ r, n = (i + 1) + r := ⟨n - (i + 1), by omega⟩
  rw [byteTransitions_add, List.filter_append, zero_add]
  have h1 : (byteTransitions raw 0 (i + 1)).filter (fun x => decide (x ≤ i))
      = byteTransitions raw 0 (i + 1) := by
    rw [List.filter_eq_self]
    intro x hx
    have := (mem_byteTransitions _ _ _ _).1 hx
    simp only [decide_eq_true_eq]
    omega
  have h2 : (byteTransitions raw (i + 1) r).filter (fun x => decide (x ≤ i)) = [] := by
    rw [List.filter_eq_nil_iff]
    intro x hx
    have := (mem_byteTransitions _ _ _ _).1 hx
    simp only [decide_eq_true_eq]
    omega
  rw [h1, h2, List.append_nil]

/-- On a two-level raster the number of transitions below `m` is odd exactly when the byte
before `m` is on. -/
theorem byteTransitions_parity (raw : List Nat) (h : TwoLevel raw) (m : Nat) :
    (byteTransitions raw 0 m).length % 2 = 1 ↔ prevByte raw m ≠ 0 := by
  obtain ⟨v, hv⟩ := h
  induction m with
  | zero => simp [byteTransitions, prevByte]
  | succ m ih =>
    rw [byteTransitions_succ, prevByte_succ, zero_add]
    have hb := twoLevel_byteAt raw v hv m
    have hp := twoLevel_prevByte raw v hv m
    by_cases hne : byteAt raw m = prevByte raw m
    · simp only [hne, ne_eq, not_true_eq_false, if_false, List.append_nil]
      exact ih
    · simp only [ne_eq, hne, not_false_eq_true, if_true, List.length_append,
        List.length_singleton]
      constructor
      · intro hodd h0
        have : ¬ (prevByte raw m ≠ 0) := fun hc => by
          have := ih.2 hc
          omega
        have hp0 : prevByte raw m = 0 := by
          by_contra hc
          exact this hc
        exact hne (by rw [h0, hp0])
      · intro hb0
        have hp0 : prevByte raw m = 0 := by
          rcases hb with hb | hb
          · exact absurd hb hb0
          · rcases hp with hp | hp
            · exact hp
            · exact absurd (hb.trans hp.symm) hne
        have : ¬ ((byteTransitions raw 0 m).length % 2 = 1) := fun hc => (ih.1 hc) hp0
        omega

/-! ## The closed sequence -/

theorem closeRun_cases (t : List Nat) (n : Nat) (hb : ∀ x ∈ t, x < n) (hn : n < 2 ^ 32) :
    closeRun t (n : Int) = t ∨ (0 < n ∧ closeRun t (n : Int) = t ++ [n - 1]) := by
  have hpos : t ≠ [] → 0 < n := by
    intro hne
    obtain ⟨x, hx⟩ := List.exists_mem_of_ne_nil _ hne
    have := hb x hx
    omega
  rw [closeRun_eq t n hn hpos]
  by_cases hodd : t.length % 2 = 1
  · right
    have hne : t ≠ [] := by rintro rfl; simp at hodd
    exact ⟨hpos hne, by rw [if_pos hodd]⟩
  · left
    rw [if_neg hodd]

theorem closeRun_mem_lt (t : List Nat) (n : Nat) (hb : ∀ x ∈ t, x < n) (hn : n < 2 ^ 32) :
    ∀ x ∈ closeRun t (n : Int), x < n := by
  intro x hx
  rcases closeRun_cases t n hb hn with h | ⟨hpos, h⟩
  · rw [h] at hx; exact hb x hx
  · rw [h, List.mem_append, List.mem_singleton] at hx
    rcases hx with hx | rfl
    · exact hb x hx
    · omega

/-- The closed sequence is non-decreasing, and strictly increasing up to its last
element. -/
theorem closeRun_sorted (t : List Nat) (n : Nat) (ht : t.Pairwise (· < ·))
    (hb : ∀ x ∈ t, x < n) (hn : n < 2 ^ 32) :
    (closeRun t (n : Int)).dropLast.Pairwise (· < ·) ∧
      (closeRun t (n : Int)).Pairwise (· ≤ ·) := by
  have hle : t.Pairwise (· ≤ ·) := ht.imp (fun h => le_of_lt h)
  rcases closeRun_cases t n hb hn with h | ⟨hpos, h⟩
  · rw [h]
    exact ⟨ht.sublist (List.dropLast_sublist t), hle⟩
  · rw [h, List.dropLast_concat]
    refine ⟨ht, ?_⟩
    rw [List.pairwise_append]
    refine ⟨hle, List.pairwise_singleton _ _, ?_⟩
    intro a ha b hb1
    rw [List.mem_singleton] at hb1
    have := hb a ha
    omega

theorem byteTransitions_lt (raw : List Nat) (k : Nat) : ∀ x ∈ byteTransitions raw 0 k, x < k := by
  intro x hx
  have := (mem_byteTransitions _ _ _ _).1 hx
  omega

/-- Run membership in the sequence of the per-byte branch on a two-level buffer. -/
theorem closeRun_inRuns (raw : List Nat) (n i : Nat) (htl : TwoLevel raw) (hn : n < 2 ^ 32)
    (hi : i < n) :
    inRuns (closeRun (byteTransitions raw 0 n) (n : Int)) i ↔ (byteAt raw i ≠ 0 ∧ i + 1 < n) := by
  have hb := byteTransitions_lt raw n
  have hsorted := (closeRun_sorted _ n (byteTransitions_sorted raw 0 n) hb hn).2
  have heven := closeRun_length_even (byteTransitions raw 0 n) (n : Int)
  by_cases hlast : i + 1 < n
  · rw [inRuns_iff_odd_count _ i heven hsorted]
    have hfilter : (closeRun (byteTransitions raw 0 n) (n : Int)).filter (fun x => decide (x ≤ i))
        = byteTransitions raw 0 (i + 1) := by
      rcases closeRun_cases _ n hb hn with h | ⟨_, h⟩
      · rw [h, byteTransitions_filter_le raw n i hi]
      · rw [h, List.filter_append, byteTransitions_filter_le raw n i hi]
        have : ¬ (n - 1 ≤ i) := by omega
        simp [List.filter_cons, this]
    rw [hfilter, byteTransitions_parity raw htl (i + 1), prevByte_succ]
    simp [hlast]
  · constructor
    · intro hin
      obtain ⟨e, he, hlt⟩ := inRuns_exists_gt _ i hin
      have := closeRun_mem_lt _ n hb hn e he
      omega
    · intro hc
      exact absurd hc.2 hlast

/-! ## C7 -/

/-- C7, as stated, fails in two ways.  On the two-level 3x1 raster `[0, 1, 1]` the open run
is closed with `n - 1 = 2`, so `data = [1, 2]` and the on pixel `2` lies in no pair.  On the
3x1 raster `[1, 2, 0]` the change of value from `1` to `2` is recorded as a transition, so
`data = [0, 1, 2, 2]` and the on pixel `1` lies in no pair. -/
theorem load_reference_runs_counterexample :
    ((ofxRleImage.load false ofxRleImage.new ⟨OF_IMAGE_GRAYSCALE, 3, 1, [0, 1, 1]⟩).map
        (fun r => r.1.data) = some [1, 2] ∧
      byteAt [0, 1, 1] 2 ≠ 0 ∧
      ¬ ∃ k s e, [1, 2][2 * k]? = some s ∧ [1, 2][2 * k + 1]? = some e ∧ s ≤ 2 ∧ 2 < e) ∧
    ((ofxRleImage.load false ofxRleImage.new ⟨OF_IMAGE_GRAYSCALE, 3, 1, [1, 2, 0]⟩).map
        (fun r => r.1.data) = some [0, 1, 2, 2] ∧
      byteAt [1, 2, 0] 1 ≠ 0 ∧
      ¬ ∃ k s e, [0, 1, 2, 2][2 * k]? = some s ∧ [0, 1, 2, 2][2 * k + 1]? = some e ∧
        s ≤ 1 ∧ 1 < e) := by
  refine ⟨⟨by decide, by decide, ?_⟩, by decide, by decide, ?_⟩
  · rw [← inRuns_iff]
    simp [inRuns]
  · rw [← inRuns_iff]
    simp [inRuns]

/-- C7 (amended): for every two-level raster (all non-zero bytes carry one value), with
`data` the sequence produced by the reference strategy, a pixel index `i` in
`[0, width * height)` lies in a pair's half-open span, `data[2k] ≤ i < data[2k+1]` for some
`k`, if and only if the pixel is on (non-zero byte) and `i` is not the last index
`width * height - 1`. -/
theorem load_reference_runs (self : ofxRleImage) (img : ofImage) (h : Raster img)
    (htl : TwoLevel img.pixels) :
    ∃ st, ofxRleImage.load false self img = some (st, img) ∧
      ∀ i, i < img.width * img.height →
        ((∃ k s e, st.data[2 * k]? = some s ∧ st.data[2 * k + 1]? = some e ∧ s ≤ i ∧ i < e) ↔
          (byteAt img.pixels i ≠ 0 ∧ i + 1 < img.width * img.height)) := by
  refine ⟨_, load_reference_eq self img h, ?_⟩
  intro i hi
  rw [← inRuns_iff]
  exact closeRun_inRuns img.pixels _ i htl (by have := h.2.2; omega) hi

theorem load_reference_runs_witness :
    ∃ st, ofxRleImage.load false ofxRleImage.new ⟨OF_IMAGE_GRAYSCALE, 3, 2, [0, 7, 7, 0, 0, 7]⟩
        = some (st, ⟨OF_IMAGE_GRAYSCALE, 3, 2, [0, 7, 7, 0, 0, 7]⟩) ∧
      ∀ i, i < 3 * 2 →
        ((∃ k s e, st.data[2 * k]? = some s ∧ st.data[2 * k + 1]? = some e ∧ s ≤ i ∧ i < e) ↔
          (byteAt [0, 7, 7, 0, 0, 7] i ≠ 0 ∧ i + 1 < 3 * 2)) :=
  load_reference_runs ofxRleImage.new ⟨OF_IMAGE_GRAYSCALE, 3, 2, [0, 7, 7, 0, 0, 7]⟩
    (by decide) ⟨7, by decide⟩

/-! ## C8 -/

theorem load_fast_small (self : ofxRleImage) (img : ofImage) (h : Raster img)
    (hs : img.width * img.height < 8) : ofxRleImage.load true self img = none := by
  have w1 : writeChunk img.pixels 0 = none := by
    unfold writeChunk
    rw [if_neg]
    intro hc
    have := hc.2
    have := h.2.1
    omega
  unfold ofxRleImage.load
  rw [if_pos h.1]
  simp only [if_true, w1]

/-- The sequence left by either branch of `load` on a raster, whenever the call completes. -/
theorem load_data_cases (useFastEncoding : Bool) (self : ofxRleImage) (img : ofImage)
    (h : Raster img) (st : ofxRleImage) (img1 : ofImage)
    (hload : ofxRleImage.load useFastEncoding self img = some (st, img1)) :
    ∃ raw k, k ≤ img.width * img.height ∧
      st.data = closeRun (byteTransitions raw 0 k) ((img.width * img.height : Nat) : Int) := by
  cases useFastEncoding with
  | false =>
    rw [load_reference_eq self img h] at hload
    simp only [Option.some.injEq, Prod.mk.injEq] at hload
    exact ⟨img.pixels, _, le_refl _, by rw [← hload.1]⟩
  | true =>
    by_cases h8 : 8 ≤ img.width * img.height
    · rw [load_fast_eq self img h h8] at hload
      simp only [Option.some.injEq, Prod.mk.injEq] at hload
      refine ⟨zeroedWords img.pixels (img.width * img.height), _,
        (lastChunkOf_bound _ h8).1, ?_⟩
      rw [← hload.1, fastScan_zeroedWords _ _ h.2.1 h8]
    · rw [load_fast_small self img h (by omega)] at hload
      exact absurd hload (by simp)

/-- C8, as stated, fails: on the 3x1 raster `[0, 0, 1]` the only transition is at the last
index `2`, the count is odd, and the closing index `n - 1 = 2` repeats it: `data = [2, 2]`. -/
theorem load_closing_repeats_counterexample :
    (ofxRleImage.load false ofxRleImage.new ⟨OF_IMAGE_GRAYSCALE, 3, 1, [0, 0, 1]⟩).map
        (fun r => r.1.data) = some [2, 2] ∧
    ¬ List.Chain' (· < ·) [2, 2] := by
  refine ⟨by decide, ?_⟩
  simp

/-- C8 (amended): for every raster, the transition index sequence produced by
`load(ofImage&)` is non-decreasing, and it is strictly increasing up to its last element:
only the closing index appended for an odd count can repeat the element before it.  (The
per-byte strategy always completes, the word-parallel one on rasters of at least eight
bytes.) -/
theorem load_data_increasing (useFastEncoding : Bool) (self : ofxRleImage) (img : ofImage)
    (h : Raster img) :
    (∀ st img1, ofxRleImage.load useFastEncoding self img = some (st, img1) →
      st.data.dropLast.Pairwise (· < ·) ∧ st.data.Pairwise (· ≤ ·)) ∧
    ((useFastEncoding = false ∨ 8 ≤ img.width * img.height) →
      ∃ st img1, ofxRleImage.load useFastEncoding self img = some (st, img1)) := by
  constructor
  · intro st img1 hload
    obtain ⟨raw, k, hk, hdata⟩ := load_data_cases useFastEncoding self img h st img1 hload
    rw [hdata]
    exact closeRun_sorted _ _ (byteTransitions_sorted raw 0 k)
      (fun x hx => lt_of_lt_of_le (byteTransitions_lt raw k x hx) hk) (by have := h.2.2; omega)
  · intro hc
    cases useFastEncoding with
    | false => exact ⟨_, _, load_reference_eq self img h⟩
    | true =>
      rcases hc with hc | hc
      · exact absurd hc (by simp)
      · exact ⟨_, _, load_fast_eq self img h hc⟩

theorem load_data_increasing_witness :
    Raster ⟨OF_IMAGE_GRAYSCALE, 3, 2, [0, 7, 7, 0, 0, 7]⟩ ∧
    ((∀ st img1, ofxRleImage.load false ofxRleImage.new
        ⟨OF_IMAGE_GRAYSCALE, 3, 2, [0, 7, 7, 0, 0, 7]⟩ = some (st, img1) →
      st.data.dropLast.Pairwise (· < ·) ∧ st.data.Pairwise (· ≤ ·)) ∧
    ((false = false ∨ 8 ≤ 3 * 2) →
      ∃ st img1, ofxRleImage.load false ofxRleImage.new
        ⟨OF_IMAGE_GRAYSCALE, 3, 2, [0, 7, 7, 0, 0, 7]⟩ = some (st, img1))) :=
  ⟨by decide, load_data_increasing false ofxRleImage.new
    ⟨OF_IMAGE_GRAYSCALE, 3, 2, [0, 7, 7, 0, 0, 7]⟩ (by decide)⟩

/-! ## C9 -/

/-- C9: `load(ofImage&)` replaces `data` and never calls `update()`.  On a fresh object and
the 4x1 raster `[0, 1, 1, 0]` it leaves `data = [1, 3]` with `lines` still empty, whereas the
reconstruction of `[1, 3]` at width `4` is `[(1, 0), (3, 0)]`; reading the same image with
`operator>>` does refresh `lines`. -/
theorem load_leaves_lines_stale :
    ofxRleImage.load false ofxRleImage.new ⟨OF_IMAGE_GRAYSCALE, 4, 1, [0, 1, 1, 0]⟩
      = some (⟨4, 1, [1, 3], []⟩, ⟨OF_IMAGE_GRAYSCALE, 4, 1, [0, 1, 1, 0]⟩) ∧
    reconstruct 4 [1, 3] = [⟨1, 0⟩, ⟨3, 0⟩] ∧
    operatorExtract ⟨operatorInsert [] ⟨4, 1, [1, 3], []⟩, false⟩ ofxRleImage.new 0
      = (⟨[], false⟩, some ⟨4, 1, [1, 3], [⟨1, 0⟩, ⟨3, 0⟩]⟩) := by
  decide

/-! ## C10 -/

/-- C10, as stated, fails for the word-parallel strategy: it clears the first and the last
full word of the caller's buffer in place.  On the 8x1 raster of eight bytes `1` the buffer
is all zero after the call. -/
theorem load_fast_clears_counterexample :
    Raster ⟨OF_IMAGE_GRAYSCALE, 8, 1, [1, 1, 1, 1, 1, 1, 1, 1]⟩ ∧
    (ofxRleImage.load true ofxRleImage.new
        ⟨OF_IMAGE_GRAYSCALE, 8, 1, [1, 1, 1, 1, 1, 1, 1, 1]⟩).map (fun r => r.2.pixels)
      = some [0, 0, 0, 0, 0, 0, 0, 0] := by
  decide

/-- C10 (amended): with `useFastEncoding = false`, `load` leaves the raster exactly as it
was.  With `useFastEncoding = true`, on a raster of `n = width * height ≥ 8` bytes, `load`
sets the bytes of the first word `[0, 8)` and of the last full word
`[8 * (n / 8 - 1), 8 * (n / 8))` to zero and leaves every other byte, the length and the
dimensions as they were. -/
theorem load_pixels_effect (self : ofxRleImage) (img : ofImage) (h : Raster img) :
    (∃ st, ofxRleImage.load false self img = some (st, img)) ∧
    (8 ≤ img.width * img.height →
      ∃ st img1, ofxRleImage.load true self img = some (st, img1) ∧
        img1.type = img.type ∧ img1.width = img.width ∧ img1.height = img.height ∧
        img1.pixels.length = img.pixels.length ∧
        ∀ i, byteAt img1.pixels i =
          if i < 8 ∨ (8 * (img.width * img.height / 8 - 1) ≤ i ∧
              i < 8 * (img.width * img.height / 8))
          then 0 else byteAt img.pixels i) := by
  refine ⟨⟨_, load_reference_eq self img h⟩, ?_⟩
  intro h8
  refine ⟨_, _, load_fast_eq self img h h8, rfl, rfl, rfl, ?_, ?_⟩
  · exact length_zeroedWords _ _ h.2.1 h8
  · intro i
    have hb := lastChunkOf_bound _ h8
    have e : 8 * (img.width * img.height / 8) = 8 * lastChunkOf (img.width * img.height) + 8 := by
      unfold lastChunkOf at hb ⊢
      omega
    rw [e]
    exact byteAt_zeroedWords img.pixels _ i h.2.1 h8

theorem load_pixels_effect_witness :
    Raster ⟨OF_IMAGE_GRAYSCALE, 5, 4, [1, 1, 1, 1, 1, 1, 1, 1, 1, 1, 1, 1, 1, 1, 1, 1, 1, 1, 1, 1]⟩ ∧
    ((∃ st, ofxRleImage.load false ofxRleImage.new
        ⟨OF_IMAGE_GRAYSCALE, 5, 4, [1, 1, 1, 1, 1, 1, 1, 1, 1, 1, 1, 1, 1, 1, 1, 1, 1, 1, 1, 1]⟩
        = some (st,
          ⟨OF_IMAGE_GRAYSCALE, 5, 4, [1, 1, 1, 1, 1, 1, 1, 1, 1, 1, 1, 1, 1, 1, 1, 1, 1, 1, 1, 1]⟩)) ∧
    (8 ≤ 5 * 4 →
      ∃ st img1, ofxRleImage.load true ofxRleImage.new
        ⟨OF_IMAGE_GRAYSCALE, 5, 4, [1, 1, 1, 1, 1, 1, 1, 1, 1, 1, 1, 1, 1, 1, 1, 1, 1, 1, 1, 1]⟩
        = some (st, img1) ∧
        img1.type = OF_IMAGE_GRAYSCALE ∧ img1.width = 5 ∧ img1.height = 4 ∧
        img1.pixels.length = 20 ∧
        ∀ i, byteAt img1.pixels i =
          if i < 8 ∨ (8 * (5 * 4 / 8 - 1) ≤ i ∧ i < 8 * (5 * 4 / 8))
          then 0 else byteAt [1, 1, 1, 1, 1, 1, 1, 1, 1, 1, 1, 1, 1, 1, 1, 1, 1, 1, 1, 1] i)) :=
  ⟨by decide, load_pixels_effect ofxRleImage.new
    ⟨OF_IMAGE_GRAYSCALE, 5, 4, [1, 1, 1, 1, 1, 1, 1, 1, 1, 1, 1, 1, 1, 1, 1, 1, 1, 1, 1, 1]⟩
    (by decide)⟩

/-! ## Reading from a short stream -/

theorem read32_failed (s : istream) (old : Nat) (h : s.fail = true) : s.read32 old = (s, old) := by
  unfold istream.read32
  rw [if_pos h]

theorem read32_ok (bytes : List Nat) (old : Nat) (h : 4 ≤ bytes.length) :
    istream.read32 ⟨bytes, false⟩ old = (⟨bytes.drop 4, false⟩, leVal (bytes.take 4)) := by
  unfold istream.read32
  simp only [Bool.false_eq_true, if_false, h, if_true]

theorem read32_short (bytes : List Nat) (old : Nat) (h : bytes.length < 4) :
    (istream.read32 ⟨bytes, false⟩ old).1 = ⟨[], true⟩ := by
  unfold istream.read32
  have : ¬ (4 ≤ bytes.length) := by omega
  simp only [Bool.false_eq_true, if_false, this]

theorem readData_failed (s : istream) (h : s.fail = true) :
    ∀ olds : List Nat, readData s olds = (s, olds) := by
  intro olds
  induction olds with
  | nil => rfl
  | cons o os ih => simp only [readData, read32_failed s o h, ih]

theorem readData_length (olds : List Nat) :
    ∀ s : istream, (readData s olds).2.length = olds.length := by
  induction olds with
  | nil => intro s; rfl
  | cons o os ih => intro s; simp only [readData, List.length_cons, ih]

theorem readData_short (olds : List Nat) :
    ∀ bytes : List Nat, bytes.length < 4 * olds.length →
      (readData ⟨bytes, false⟩ olds).1 = ⟨[], true⟩ := by
  induction olds with
  | nil => intro bytes h; simp at h
  | cons o os ih =>
    intro bytes h
    rw [List.length_cons] at h
    by_cases h4 : 4 ≤ bytes.length
    · simp only [readData, read32_ok bytes o h4]
      exact ih (bytes.drop 4) (by rw [List.length_drop]; omega)
    · have hs := read32_short bytes o (by omega)
      simp only [readData]
      have hf : (istream.read32 ⟨bytes, false⟩ o).1.fail = true := by rw [hs]
      rw [readData_failed _ hf, hs]

/-- The elements that are present in full in the stream are read, in order. -/
theorem readData_getElem (olds : List Nat) :
    ∀ (bytes : List Nat) (j : Nat), j < olds.length → 4 * (j + 1) ≤ bytes.length →
      (readData ⟨bytes, false⟩ olds).2[j]? = some (leVal ((bytes.drop (4 * j)).take 4)) := by
  induction olds with
  | nil => intro bytes j hj; simp at hj
  | cons o os ih =>
    intro bytes j hj hlen
    have h4 : 4 ≤ bytes.length := by omega
    simp only [readData, read32_ok bytes o h4]
    cases j with
    | zero => simp
    | succ j =>
      rw [List.getElem?_cons_succ, ih (bytes.drop 4) j (by simpa using hj)
        (by rw [List.length_drop]; omega), List.drop_drop]
      rw [show 4 + 4 * j = 4 * (j + 1) by omega]

/-- With the twelve header bytes present, `operator>>` reads the three fields and then the
elements of the resized `data` from the bytes that follow. -/
theorem operatorExtract_header (bytes : List Nat) (img : ofxRleImage) (dataSize0 : Nat)
    (h : 12 ≤ bytes.length) :
    operatorExtract ⟨bytes, false⟩ img dataSize0 =
      ((readData ⟨bytes.drop 12, false⟩
          (resize img.data (leVal ((bytes.drop 8).take 4)))).1,
        ofxRleImage.update
          { img with
            width := leVal (bytes.take 4)
            height := leVal ((bytes.drop 4).take 4)
            data := (readData ⟨bytes.drop 12, false⟩
              (resize img.data (leVal ((bytes.drop 8).take 4)))).2 }) := by
  unfold operatorExtract
  rw [read32_ok bytes _ (by omega)]
  simp only []
  rw [read32_ok (bytes.drop 4) _ (by rw [List.length_drop]; omega)]
  simp only []
  rw [List.drop_drop, read32_ok (bytes.drop (4 + 4)) _ (by rw [List.length_drop]; omega)]
  simp only [List.drop_drop]

theorem operatorExtract_short_header (bytes : List Nat) (img : ofxRleImage) (dataSize0 : Nat)
    (h : bytes.length < 12) :
    (operatorExtract ⟨bytes, false⟩ img dataSize0).1 = ⟨[], true⟩ := by
  have key : ∀ (s : istream) (olds : List Nat), s = ⟨[], true⟩ →
      (readData s olds).1 = ⟨[], true⟩ := by
    intro s olds hs
    rw [readData_failed s (by rw [hs]), hs]
  have step : ∀ (s : istream) (old : Nat), s = ⟨[], true⟩ → (s.read32 old).1 = ⟨[], true⟩ := by
    intro s old hs
    rw [read32_failed s old (by rw [hs]), hs]
  unfold operatorExtract
  simp only []
  apply key
  by_cases h4 : 4 ≤ bytes.length
  · rw [read32_ok bytes _ h4]
    simp only []
    by_cases h8 : 8 ≤ bytes.length
    · rw [read32_ok (bytes.drop 4) _ (by rw [List.length_drop]; omega)]
      simp only []
      exact read32_short _ _ (by rw [List.length_drop, List.length_drop]; omega)
    · apply step
      exact read32_short _ _ (by rw [List.length_drop]; omega)
  · apply step
    apply step
    exact read32_short _ _ (by omega)

theorem range_map_getD (os : List Nat) :
    (List.range os.length).map (fun j => os.getD j 0) = os := by
  apply List.ext_getElem
  · simp
  · intro j h1 h2
    simp only [List.getElem_map, List.getElem_range]
    exact List.getD_eq_getElem _ _ h2

theorem truncatedData_cons_full (payload : List Nat) (o : Nat) (os : List Nat)
    (h4 : 4 ≤ payload.length) :
    truncatedData payload (o :: os)
      = leVal (payload.take 4) :: truncatedData (payload.drop 4) os := by
  unfold truncatedData
  rw [List.length_cons, List.range_succ_eq_map, List.map_cons, List.map_map]
  congr 1
  · simp [h4]
  · apply List.map_congr_left
    intro j _
    simp only [Function.comp_apply, List.length_drop, List.drop_drop, List.getD_cons_succ]
    have e1 : 4 * (j + 1 + 1) ≤ payload.length ↔ 4 * (j + 1) ≤ payload.length - 4 := by omega
    have e2 : j + 1 = payload.length / 4 ↔ j = (payload.length - 4) / 4 := by omega
    have e3 : 4 + 4 * j = 4 * (j + 1) := by omega
    have e4 : payload.length - 4 - 4 * j = payload.length - 4 * (j + 1) := by omega
    simp only [e1, e2, e3, e4]

theorem truncatedData_cons_short (payload : List Nat) (o : Nat) (os : List Nat)
    (h4 : payload.length < 4) :
    truncatedData payload (o :: os)
      = leVal (payload ++ (toBytes32 o).drop payload.length) :: os := by
  unfold truncatedData
  rw [List.length_cons, List.range_succ_eq_map, List.map_cons, List.map_map]
  congr 1
  · have h0 : payload.length / 4 = 0 := Nat.div_eq_of_lt h4
    have hn : ¬ (4 * (0 + 1) ≤ payload.length) := by omega
    simp [hn, h0]
  · conv_rhs => rw [← range_map_getD os]
    apply List.map_congr_left
    intro j _
    have h0 : payload.length / 4 = 0 := Nat.div_eq_of_lt h4
    have hn : ¬ (4 * (j + 1 + 1) ≤ payload.length) := by omega
    simp only [Function.comp_apply, hn, if_false, h0, List.getD_cons_succ]
    rw [if_neg (by omega)]

/-- The element loop on a stream that ends early, in closed form. -/
theorem readData_truncated (olds : List Nat) :
    ∀ payload : List Nat, payload.length < 4 * olds.length →
      readData ⟨payload, false⟩ olds = (⟨[], true⟩, truncatedData payload olds) := by
  induction olds with
  | nil => intro payload h; simp at h
  | cons o os ih =>
    intro payload h
    rw [List.length_cons] at h
    by_cases h4 : 4 ≤ payload.length
    · simp only [readData, read32_ok payload o h4]
      rw [ih (payload.drop 4) (by rw [List.length_drop]; omega),
        truncatedData_cons_full payload o os h4]
    · have h4' : payload.length < 4 := by omega
      have hr : istream.read32 ⟨payload, false⟩ o
          = (⟨[], true⟩, leVal (payload ++ (toBytes32 o).drop payload.length)) := by
        unfold istream.read32
        simp only [Bool.false_eq_true, if_false, h4]
      simp only [readData, hr]
      rw [readData_failed ⟨[], true⟩ rfl os, truncatedData_cons_short payload o os h4']

theorem length_truncatedData (payload olds : List Nat) :
    (truncatedData payload olds).length = olds.length := by
  simp [truncatedData]

/-- With fewer than twelve bytes the stream has failed when the header has been read. -/
theorem header_short (bytes : List Nat) (a b c : Nat) (h : bytes.length < 12) :
    (((istream.read32 ⟨bytes, false⟩ a).1.read32 b).1.read32 c).1 = ⟨[], true⟩ := by
  have step : ∀ (s : istream) (old : Nat), s = ⟨[], true⟩ → (s.read32 old).1 = ⟨[], true⟩ := by
    intro s old hs
    rw [read32_failed s old (by rw [hs]), hs]
  by_cases h4 : 4 ≤ bytes.length
  · rw [read32_ok bytes _ h4]
    simp only []
    by_cases h8 : 8 ≤ bytes.length
    · rw [read32_ok (bytes.drop 4) _ (by rw [List.length_drop]; omega)]
      simp only []
      exact read32_short _ _ (by rw [List.length_drop, List.length_drop]; omega)
    · apply step
      exact read32_short _ _ (by rw [List.length_drop]; omega)
  · apply step
    apply step
    exact read32_short _ _ (by omega)

/-! ## C11 -/

/-- C11, as stated, fails: for the 16-byte stream whose header declares two indices and that
holds only one, `operator>>` sets the fail state of the stream but still delivers an image:
width `4`, height `1`, the index sequence `[5, 0]` with the first index read and the second
never read, and `lines` rebuilt from it. -/
theorem operatorExtract_truncated_counterexample :
    [4, 0, 0, 0, 1, 0, 0, 0, 2, 0, 0, 0, 5, 0, 0, 0].length
      < 12 + 4 * leVal (([4, 0, 0, 0, 1, 0, 0, 0, 2, 0, 0, 0, 5, 0, 0, 0].drop 8).take 4) ∧
    operatorExtract ⟨[4, 0, 0, 0, 1, 0, 0, 0, 2, 0, 0, 0, 5, 0, 0, 0], false⟩ ofxRleImage.new 0
      = (⟨[], true⟩, some ⟨4, 1, [5, 0], [⟨1, 1⟩, ⟨0, 0⟩]⟩) := by
  decide

/-- C11 (amended): for every byte stream that is shorter than 12 bytes, or whose length is
less than `12 + 4 * transition_count` for the `transition_count` in its header, and for
which `dataSize` (the declared count, or the undetermined value when the header is
incomplete) stays below `2^31` (beyond that the `int` counters of lines 207 and 101 leave
their range), `operator>>` leaves the stream empty and in the fail state, which is its only
report.  It does not hold back the image.  With a complete header it stores the width and
height of the header and an index sequence of the declared length, in which every index
present in full in the stream is read, the first index not present in full has its leading
bytes overwritten with the bytes that remain, and the later ones keep what `resize` left
there; it then runs `update()`, which delivers the image with `lines` rebuilt when the width
read is not `0` and divides by zero when it is.  With an incomplete header it keeps the
fields as far as they were read, resizes `data` to the undetermined `dataSize` without
reading any element, and runs `update()` as well. -/
theorem operatorExtract_truncated (bytes : List Nat) (img : ofxRleImage) (dataSize0 : Nat)
    (h : bytes.length < 12 ∨ bytes.length < 12 + 4 * leVal ((bytes.drop 8).take 4))
    (_hsize : extractDataSize ⟨bytes, false⟩ img dataSize0 < 2 ^ 31) :
    (operatorExtract ⟨bytes, false⟩ img dataSize0).1 = ⟨[], true⟩ ∧
    (12 ≤ bytes.length →
      (operatorExtract ⟨bytes, false⟩ img dataSize0).2
        = ofxRleImage.update ⟨leVal (bytes.take 4), leVal ((bytes.drop 4).take 4),
            truncatedData (bytes.drop 12) (resize img.data (leVal ((bytes.drop 8).take 4))),
            img.lines⟩ ∧
      (leVal (bytes.take 4) ≠ 0 →
        ∃ r, (operatorExtract ⟨bytes, false⟩ img dataSize0).2 = some r ∧
          r.width = leVal (bytes.take 4) ∧ r.height = leVal ((bytes.drop 4).take 4) ∧
          r.data = truncatedData (bytes.drop 12)
            (resize img.data (leVal ((bytes.drop 8).take 4))) ∧
          r.data.length = leVal ((bytes.drop 8).take 4) ∧
          r.lines = reconstruct r.width r.data) ∧
      (leVal (bytes.take 4) = 0 → (operatorExtract ⟨bytes, false⟩ img dataSize0).2 = none)) ∧
    (bytes.length < 12 →
      (operatorExtract ⟨bytes, false⟩ img dataSize0).2
        = ofxRleImage.update ⟨(istream.read32 ⟨bytes, false⟩ img.width).2,
            ((istream.read32 ⟨bytes, false⟩ img.width).1.read32 img.height).2,
            resize img.data (extractDataSize ⟨bytes, false⟩ img dataSize0), img.lines⟩) := by
  refine ⟨?_, ?_, ?_⟩
  · by_cases h12 : bytes.length < 12
    · exact operatorExtract_short_header bytes img dataSize0 h12
    · have hc : bytes.length < 12 + 4 * leVal ((bytes.drop 8).take 4) := by
        rcases h with h | h
        · exact absurd h h12
        · exact h
      rw [operatorExtract_header bytes img dataSize0 (by omega)]
      exact readData_short _ _ (by rw [length_resize, List.length_drop]; omega)
  · intro h12
    have hc : bytes.length < 12 + 4 * leVal ((bytes.drop 8).take 4) := by
      rcases h with h | h
      · omega
      · exact h
    have hread := readData_truncated (resize img.data (leVal ((bytes.drop 8).take 4)))
      (bytes.drop 12) (by rw [length_resize, List.length_drop]; omega)
    have hout : (operatorExtract ⟨bytes, false⟩ img dataSize0).2
        = ofxRleImage.update ⟨leVal (bytes.take 4), leVal ((bytes.drop 4).take 4),
            truncatedData (bytes.drop 12) (resize img.data (leVal ((bytes.drop 8).take 4))),
            img.lines⟩ := by
      rw [operatorExtract_header bytes img dataSize0 h12, hread]
    have hlen : (truncatedData (bytes.drop 12)
        (resize img.data (leVal ((bytes.drop 8).take 4)))).length
        = leVal ((bytes.drop 8).take 4) := by
      rw [length_truncatedData, length_resize]
    refine ⟨hout, ?_, ?_⟩
    · intro hw
      refine ⟨_, hout.trans (update_eq _ (Nat.pos_of_ne_zero hw)), rfl, rfl, rfl, hlen, rfl⟩
    · intro hw
      rw [hout]
      unfold ofxRleImage.update
      rw [if_pos]
      refine ⟨hw, ?_⟩
      intro hnil
      have := congrArg List.length hnil
      simp only [] at this
      rw [hlen, List.length_nil] at this
      omega
  · intro h12
    unfold operatorExtract extractDataSize
    simp only []
    have hs := header_short bytes img.width img.height dataSize0 h12
    rw [readData_failed _ (by rw [hs])]

theorem operatorExtract_truncated_witness :
    (operatorExtract ⟨[4, 0, 0, 0, 1, 0, 0, 0, 2, 0, 0, 0, 5, 0, 0, 0, 9], false⟩
        ⟨8, 1, [7, 7, 7, 7], []⟩ 3).1 = ⟨[], true⟩ ∧
    (12 ≤ [4, 0, 0, 0, 1, 0, 0, 0, 2, 0, 0, 0, 5, 0, 0, 0, 9].length →
      (operatorExtract ⟨[4, 0, 0, 0, 1, 0, 0, 0, 2, 0, 0, 0, 5, 0, 0, 0, 9], false⟩
          ⟨8, 1, [7, 7, 7, 7], []⟩ 3).2
        = ofxRleImage.update ⟨leVal ([4, 0, 0, 0, 1, 0, 0, 0, 2, 0, 0, 0, 5, 0, 0, 0, 9].take 4),
            leVal (([4, 0, 0, 0, 1, 0, 0, 0, 2, 0, 0, 0, 5, 0, 0, 0, 9].drop 4).take 4),
            truncatedData ([4, 0, 0, 0, 1, 0, 0, 0, 2, 0, 0, 0, 5, 0, 0, 0, 9].drop 12)
              (resize [7, 7, 7, 7]
                (leVal (([4, 0, 0, 0, 1, 0, 0, 0, 2, 0, 0, 0, 5, 0, 0, 0, 9].drop 8).take 4))),
            []⟩ ∧
      (leVal ([4, 0, 0, 0, 1, 0, 0, 0, 2, 0, 0, 0, 5, 0, 0, 0, 9].take 4) ≠ 0 →
        ∃ r, (operatorExtract ⟨[4, 0, 0, 0, 1, 0, 0, 0, 2, 0, 0, 0, 5, 0, 0, 0, 9], false⟩
            ⟨8, 1, [7, 7, 7, 7], []⟩ 3).2 = some r ∧
          r.width = leVal ([4, 0, 0, 0, 1, 0, 0, 0, 2, 0, 0, 0, 5, 0, 0, 0, 9].take 4) ∧
          r.height
            = leVal (([4, 0, 0, 0, 1, 0, 0, 0, 2, 0, 0, 0, 5, 0, 0, 0, 9].drop 4).take 4) ∧
          r.data = truncatedData ([4, 0, 0, 0, 1, 0, 0, 0, 2, 0, 0, 0, 5, 0, 0, 0, 9].drop 12)
            (resize [7, 7, 7, 7]
              (leVal (([4, 0, 0, 0, 1, 0, 0, 0, 2, 0, 0, 0, 5, 0, 0, 0, 9].drop 8).take 4))) ∧
          r.data.length
            = leVal (([4, 0, 0, 0, 1, 0, 0, 0, 2, 0, 0, 0, 5, 0, 0, 0, 9].drop 8).take 4) ∧
          r.lines = reconstruct r.width r.data) ∧
      (leVal ([4, 0, 0, 0, 1, 0, 0, 0, 2, 0, 0, 0, 5, 0, 0, 0, 9].take 4) = 0 →
        (operatorExtract ⟨[4, 0, 0, 0, 1, 0, 0, 0, 2, 0, 0, 0, 5, 0, 0, 0, 9], false⟩
          ⟨8, 1, [7, 7, 7, 7], []⟩ 3).2 = none)) ∧
    ([4, 0, 0, 0, 1, 0, 0, 0, 2, 0, 0, 0, 5, 0, 0, 0, 9].length < 12 →
      (operatorExtract ⟨[4, 0, 0, 0, 1, 0, 0, 0, 2, 0, 0, 0, 5, 0, 0, 0, 9], false⟩
          ⟨8, 1, [7, 7, 7, 7], []⟩ 3).2
        = ofxRleImage.update
          ⟨(istream.read32 ⟨[4, 0, 0, 0, 1, 0, 0, 0, 2, 0, 0, 0, 5, 0, 0, 0, 9], false⟩ 8).2,
            ((istream.read32 ⟨[4, 0, 0, 0, 1, 0, 0, 0, 2, 0, 0, 0, 5, 0, 0, 0, 9], false⟩
              8).1.read32 1).2,
            resize [7, 7, 7, 7] (extractDataSize
              ⟨[4, 0, 0, 0, 1, 0, 0, 0, 2, 0, 0, 0, 5, 0, 0, 0, 9], false⟩
              ⟨8, 1, [7, 7, 7, 7], []⟩ 3), []⟩) :=
  operatorExtract_truncated [4, 0, 0, 0, 1, 0, 0, 0, 2, 0, 0, 0, 5, 0, 0, 0, 9]
    ⟨8, 1, [7, 7, 7, 7], []⟩ 3 (Or.inr (by decide)) (by decide)

/-! ## C12 -/

theorem div_of_pred_row (w e : Nat) (he : 0 < e) :
    e / w = (e - 1) / w + if e % w = 0 then 1 else 0 := by
  obtain ⟨a, rfl⟩ : ∃ a, e = a + 1 := ⟨e - 1, by omega⟩
  rw [Nat.succ_div, Nat.add_sub_cancel]
  by_cases hd : w ∣ a + 1
  · rw [if_pos hd, if_pos (Nat.mod_eq_zero_of_dvd hd)]
  · rw [if_neg hd, if_neg (fun h => hd (Nat.dvd_of_mod_eq_zero h))]

theorem reconstruct_single_pair (width s e : Nat) :
    reconstruct width [s, e] = pairPoints width s e := by
  rw [reconstruct_pair_cons, reconstruct_nil, List.append_nil]

/-- C12, as stated, fails at its own witness: at width `2` the run `[2, 4)` fills row `1`,
but its end index `4` lies in row `2`, so `update()` bridges from row `1` to row `2` and
emits four points, `(0,1), (2,1), (0,2), (0,2)`. -/
theorem update_row_end_counterexample :
    (0 < 2 ∧ 2 < 4 ∧ 2 / 2 = (4 - 1) / 2) ∧
    ofxRleImage.update ⟨2, 3, [2, 4], []⟩
      = some ⟨2, 3, [2, 4], [⟨0, 1⟩, ⟨2, 1⟩, ⟨0, 2⟩, ⟨0, 2⟩]⟩ := by
  decide

/-- C12 (amended): for every width > 0 and every pair `(s, e)` with `s < e` whose on-pixels
`[s, e)` all lie in a single row `r` (`s / width = (e - 1) / width`), `update()` on the
sequence `[s, e]` emits exactly the two endpoints of the run when the run stops before the
end of its row (`e` is not a multiple of `width`); when the run reaches the end of its row
(`e` is a multiple of `width`, so the end index lies in row `r + 1`) it emits four points:
the start point, the synthesized row end `(width, r)`, the synthesized row start
`(0, r + 1)` and the end point `(0, r + 1)`. -/
theorem update_single_row (width height s e : Nat) (lines0 : List RlePoint2d)
    (hw : 0 < width) (hse : s < e) (hrow : s / width = (e - 1) / width) :
    ∃ r, ofxRleImage.update ⟨width, height, [s, e], lines0⟩ = some r ∧
      r.lines =
        if e % width = 0 then
          [⟨s % width, s / width⟩, ⟨width, s / width⟩, ⟨0, s / width + 1⟩, ⟨0, s / width + 1⟩]
        else [⟨s % width, s / width⟩, ⟨e % width, s / width⟩] := by
  refine ⟨_, update_eq _ hw, ?_⟩
  show reconstruct width [s, e] = _
  rw [reconstruct_single_pair]
  have hdiv := div_of_pred_row width e (by omega)
  by_cases hm : e % width = 0
  · rw [if_pos hm] at hdiv
    rw [if_pos hm]
    have he : e / width = s / width + 1 := by omega
    unfold pairPoints
    rw [he, hm, show s / width + 1 - s / width = 1 by omega, bridgePoints_succ]
    simp [bridgePoints]
  · rw [if_neg hm] at hdiv
    rw [if_neg hm]
    have he : e / width = s / width := by omega
    unfold pairPoints
    rw [he, Nat.sub_self]
    simp [bridgePoints]

theorem update_single_row_witness :
    ∃ r, ofxRleImage.update ⟨4, 3, [5, 7], []⟩ = some r ∧
      r.lines =
        if 7 % 4 = 0 then [⟨5 % 4, 5 / 4⟩, ⟨4, 5 / 4⟩, ⟨0, 5 / 4 + 1⟩, ⟨0, 5 / 4 + 1⟩]
        else [⟨5 % 4, 5 / 4⟩, ⟨7 % 4, 5 / 4⟩] :=
  update_single_row 4 3 5 7 [] (by decide) (by decide) (by decide)

/-! ## C13 -/

theorem closeRun_length_le (data : List Nat) (nPixels : Int) :
    (closeRun data nPixels).length ≤ data.length + 1 := by
  unfold closeRun
  split
  · rw [List.length_append, List.length_singleton]
  · omega

/-- C13, as stated, fails: on the 1x1 raster `[1]` the per-byte branch records the
transition `0`, the count is odd, and the closing index `0` is appended: `data = [0, 0]` has
two elements for one pixel. -/
theorem load_length_counterexample :
    Raster ⟨OF_IMAGE_GRAYSCALE, 1, 1, [1]⟩ ∧
    (ofxRleImage.load false ofxRleImage.new ⟨OF_IMAGE_GRAYSCALE, 1, 1, [1]⟩).map
        (fun r => r.1.data) = some [0, 0] ∧
    ¬ ([0, 0].length ≤ 1 * 1) := by
  decide

/-- C13 (amended): for every raster and either strategy, whenever `load(ofImage&)` completes
(always for the per-byte strategy, for at least eight bytes with the word-parallel one) the
length of the transition index sequence is at most `width * height + 1`, and at most
`width * height` when `width * height` is even. -/
theorem load_data_bounded (useFastEncoding : Bool) (self : ofxRleImage) (img : ofImage)
    (h : Raster img) :
    (∀ st img1, ofxRleImage.load useFastEncoding self img = some (st, img1) →
      st.data.length ≤ img.width * img.height + 1 ∧
      (img.width * img.height % 2 = 0 → st.data.length ≤ img.width * img.height)) ∧
    ((useFastEncoding = false ∨ 8 ≤ img.width * img.height) →
      ∃ st img1, ofxRleImage.load useFastEncoding self img = some (st, img1)) := by
  constructor
  · intro st img1 hload
    obtain ⟨raw, k, hk, hdata⟩ := load_data_cases useFastEncoding self img h st img1 hload
    have h1 := closeRun_length_le (byteTransitions raw 0 k)
      ((img.width * img.height : Nat) : Int)
    have h2 := closeRun_length_even (byteTransitions raw 0 k)
      ((img.width * img.height : Nat) : Int)
    have h3 := byteTransitions_length_le raw 0 k
    rw [← hdata] at h1 h2
    constructor
    · omega
    · intro heven
      omega
  · intro hc
    cases useFastEncoding with
    | false => exact ⟨_, _, load_reference_eq self img h⟩
    | true =>
      rcases hc with hc | hc
      · exact absurd hc (by simp)
      · exact ⟨_, _, load_fast_eq self img h hc⟩

theorem load_data_bounded_witness :
    Raster ⟨OF_IMAGE_GRAYSCALE, 3, 1, [1, 0, 1]⟩ ∧
    ((∀ st img1, ofxRleImage.load false ofxRleImage.new ⟨OF_IMAGE_GRAYSCALE, 3, 1, [1, 0, 1]⟩
        = some (st, img1) →
      st.data.length ≤ 3 * 1 + 1 ∧ (3 * 1 % 2 = 0 → st.data.length ≤ 3 * 1)) ∧
    ((false = false ∨ 8 ≤ 3 * 1) →
      ∃ st img1, ofxRleImage.load false ofxRleImage.new ⟨OF_IMAGE_GRAYSCALE, 3, 1, [1, 0, 1]⟩
        = some (st, img1))) :=
  ⟨by decide, load_data_bounded false ofxRleImage.new ⟨OF_IMAGE_GRAYSCALE, 3, 1, [1, 0, 1]⟩
    (by decide)⟩

/-! ## C14 -/

/-- The bridging loop has left its condition `prevRow < curPoint.y` false when the
iterations granted to it are spent. -/
theorem bridgeRows_exit (width y prevRow : Nat) (lines : List RlePoint2d) :
    ¬ ((bridgeRows width y (y - prevRow) (prevRow, lines)).1 < y) := by
  rw [bridgeRows_eq width y _ prevRow lines rfl]
  simp only [not_lt]
  exact le_max_right _ _

theorem updateRunLoop_unchecked (width : Nat) (hw : width ≠ 0) (data : List Nat) :
    ∀ (i : Nat) (st : Nat × List RlePoint2d),
      updateRunLoop false width data i st
        = UpdateResult.completed (updateLoop width data i st).2 := by
  induction data with
  | nil => intro i st; rfl
  | cons x xs ih =>
    intro i st
    rw [updateRunLoop, if_neg (by simp), if_neg hw, ih]
    rfl

theorem toInt32_length_of_lt (data : List Nat) (h : data.length < 2 ^ 31) :
    ¬ (toInt32 data.length < 0) ∧ data.take (toInt32 data.length).toNat = data := by
  rw [toInt32_of_lt _ h]
  exact ⟨by omega, by rw [Int.toNat_ofNat, List.take_length]⟩

/-- C14, as stated, fails: with the stored width `0` and the indices `[1, 2]` the first
iteration of `update()` computes `1 % 0`, also in a build without vector index checks; the
same happens inside `operator>>` for a stream whose header carries the width `0`. -/
theorem update_zero_width_counterexample :
    ofxRleImage.updateRun false ⟨0, 0, [1, 2], []⟩ = UpdateResult.divisionByZero 0 ∧
    ofxRleImage.update ⟨0, 0, [1, 2], []⟩ = none ∧
    operatorExtract ⟨[0, 0, 0, 0, 3, 0, 0, 0, 2, 0, 0, 0, 1, 0, 0, 0, 2, 0, 0, 0], false⟩
      ofxRleImage.new 0 = (⟨[], false⟩, none) := by
  decide

/-- C14 (amended): in a build without vector index checks, `update()` completes and yields
the point sequence for every index sequence of fewer than `2^31` elements at every stored
width other than `0`, and at width `0` for the empty sequence (no iteration runs), and the
bridging loop always comes to its end; with width `0` and a non-empty sequence the first
iteration divides by zero.  In a build with vector index checks the first iteration of every
non-empty sequence stops at the read `lines[0]` of line 103, made right after
`lines.clear()`.  A sequence of `2^31` to `2^32 - 1` elements makes `nLineEndpoints`
negative, and `lines.reserve` fails in either build. -/
theorem update_completes (self : ofxRleImage) :
    (self.data.length < 2 ^ 31 →
      ((self.width ≠ 0 ∨ self.data = []) →
        self.updateRun false = UpdateResult.completed (reconstruct self.width self.data) ∧
        self.update = some { self with lines := reconstruct self.width self.data }) ∧
      ((self.width = 0 ∧ self.data ≠ []) →
        self.updateRun false = UpdateResult.divisionByZero 0 ∧ self.update = none) ∧
      (self.data ≠ [] → self.updateRun true = UpdateResult.indexOutOfRange 0 0) ∧
      (self.data = [] → self.updateRun true = UpdateResult.completed [])) ∧
    (∀ checkedIndex, 2 ^ 31 ≤ self.data.length → self.data.length < 2 ^ 32 →
      self.updateRun checkedIndex = UpdateResult.reserveFailed) ∧
    (∀ y prevRow lines,
      ¬ ((bridgeRows self.width y (y - prevRow) (prevRow, lines)).1 < y)) := by
  refine ⟨?_, ?_, fun y prevRow lines => bridgeRows_exit self.width y prevRow lines⟩
  · intro hlen
    obtain ⟨hneg, htake⟩ := toInt32_length_of_lt self.data hlen
    have hrun : ∀ c, self.updateRun c = updateRunLoop c self.width self.data 0 (0, []) := by
      intro c
      unfold ofxRleImage.updateRun
      simp only [hneg, if_false, htake]
    refine ⟨?_, ?_, ?_, ?_⟩
    · intro hc
      constructor
      · rw [hrun]
        rcases hc with hc | hc
        · rw [updateRunLoop_unchecked self.width hc]
          rfl
        · rw [hc]
          rfl
      · unfold ofxRleImage.update
        rw [if_neg]
        rintro ⟨h0, hne⟩
        rcases hc with hc | hc
        · exact hc h0
        · exact hne hc
    · rintro ⟨h0, hne⟩
      constructor
      · rw [hrun]
        obtain ⟨x, xs, hx⟩ := List.exists_cons_of_ne_nil hne
        rw [hx, updateRunLoop, if_neg (by simp), if_pos h0]
      · unfold ofxRleImage.update
        rw [if_pos ⟨h0, hne⟩]
    · intro hne
      rw [hrun]
      obtain ⟨x, xs, hx⟩ := List.exists_cons_of_ne_nil hne
      rw [hx, updateRunLoop, if_pos ⟨rfl, Nat.le_refl _⟩]
      rfl
    · intro hnil
      rw [hrun, hnil]
      rfl
  · intro c h1 h2
    have hneg : toInt32 self.data.length < 0 := by
      unfold toInt32
      have e : self.data.length % 2 ^ 32 = self.data.length := Nat.mod_eq_of_lt h2
      rw [e, if_neg (by omega)]
      omega
    unfold ofxRleImage.updateRun
    simp only [hneg, if_true]

theorem update_completes_witness :
    ([1, 3, 6, 13].length < 2 ^ 31 →
      ((4 ≠ 0 ∨ [1, 3, 6, 13] = []) →
        ofxRleImage.updateRun false ⟨4, 4, [1, 3, 6, 13], []⟩
          = UpdateResult.completed (reconstruct 4 [1, 3, 6, 13]) ∧
        ofxRleImage.update ⟨4, 4, [1, 3, 6, 13], []⟩
          = some ⟨4, 4, [1, 3, 6, 13], reconstruct 4 [1, 3, 6, 13]⟩) ∧
      (((4 : Nat) = 0 ∧ [1, 3, 6, 13] ≠ []) →
        ofxRleImage.updateRun false ⟨4, 4, [1, 3, 6, 13], []⟩ = UpdateResult.divisionByZero 0 ∧
        ofxRleImage.update ⟨4, 4, [1, 3, 6, 13], []⟩ = none) ∧
      ([1, 3, 6, 13] ≠ [] →
        ofxRleImage.updateRun true ⟨4, 4, [1, 3, 6, 13], []⟩
          = UpdateResult.indexOutOfRange 0 0) ∧
      ([1, 3, 6, 13] = [] →
        ofxRleImage.updateRun true ⟨4, 4, [1, 3, 6, 13], []⟩ = UpdateResult.completed [])) ∧
    (∀ checkedIndex, 2 ^ 31 ≤ [1, 3, 6, 13].length → [1, 3, 6, 13].length < 2 ^ 32 →
      ofxRleImage.updateRun checkedIndex ⟨4, 4, [1, 3, 6, 13], []⟩
        = UpdateResult.reserveFailed) ∧
    (∀ y prevRow lines, ¬ ((bridgeRows 4 y (y - prevRow) (prevRow, lines)).1 < y)) :=
  update_completes ⟨4, 4, [1, 3, 6, 13], []⟩

/-! ## The serialized layout -/

theorem length_toBytes32 (x : Nat) : (toBytes32 x).length = 4 := rfl

theorem toBytes32_lt (x b : Nat) (hb : b ∈ toBytes32 x) : b < 256 := by
  unfold toBytes32 at hb
  simp only [List.mem_cons, List.mem_singleton, List.not_mem_nil, or_false] at hb
  rcases hb with rfl | rfl | rfl | rfl <;> omega

theorem take_toBytes32_append (x : Nat) (rest : List Nat) :
    (toBytes32 x ++ rest).take 4 = toBytes32 x := by
  rw [List.take_append_of_le_length (by rw [length_toBytes32])]
  exact List.take_of_length_le (by rw [length_toBytes32])

theorem drop_toBytes32_append (x : Nat) (rest : List Nat) :
    (toBytes32 x ++ rest).drop 4 = rest := by
  rw [← length_toBytes32 x, List.drop_left]

theorem length_flatten_toBytes32 (data : List Nat) :
    ((data.map toBytes32).flatten).length = 4 * data.length := by
  induction data with
  | nil => rfl
  | cons d ds ih =>
    rw [List.map_cons, List.flatten_cons, List.length_append, ih, length_toBytes32,
      List.length_cons]
    omega

theorem flatten_toBytes32_getElem (data : List Nat) :
    ∀ (j x : Nat), data[j]? = some x →
      (((data.map toBytes32).flatten).drop (4 * j)).take 4 = toBytes32 x := by
  induction data with
  | nil => intro j x h; simp at h
  | cons d ds ih =>
    intro j x h
    rw [List.map_cons, List.flatten_cons]
    cases j with
    | zero =>
      simp only [List.getElem?_cons_zero, Option.some.injEq] at h
      subst h
      rw [Nat.mul_zero, List.drop_zero, take_toBytes32_append]
    | succ j =>
      rw [List.getElem?_cons_succ] at h
      rw [show 4 * (j + 1) = 4 + 4 * j by omega, ← List.drop_drop, drop_toBytes32_append]
      exact ih j x h

/-- The bytes written by `operator<<` for a count that fits the `unsigned int dataSize`. -/
theorem operatorInsert_eq (out : List Nat) (e : ofxRleImage) (hn : e.data.length < 2 ^ 32) :
    operatorInsert out e = out ++ (toBytes32 e.width ++ (toBytes32 e.height ++
      (toBytes32 e.data.length ++ (e.data.map toBytes32).flatten))) := by
  unfold operatorInsert
  simp only [Nat.mod_eq_of_lt hn, List.take_length, List.append_assoc]

/-! ## C15 -/

/-- C15: for every encoded image with 32-bit fields and `k` transition indices (`k` fitting
the `unsigned int` count), `operator<<` appends to the stream exactly `12 + 4 * k` bytes,
which are, in order, the 4-byte width, the 4-byte height, the 4-byte value `k`, and then the
`k` indices as 4 bytes each in sequence order, every field in the same (little-endian) byte
order, with nothing after them. -/
theorem operatorInsert_layout (out : List Nat) (e : ofxRleImage) (hw : e.width < 2 ^ 32)
    (hh : e.height < 2 ^ 32) (hn : e.data.length < 2 ^ 32) (hd : ∀ x ∈ e.data, x < 2 ^ 32) :
    operatorInsert out e = out ++ operatorInsert [] e ∧
    (operatorInsert [] e).length = 12 + 4 * e.data.length ∧
    (∀ b ∈ operatorInsert [] e, b < 256) ∧
    leVal ((operatorInsert [] e).take 4) = e.width ∧
    leVal (((operatorInsert [] e).drop 4).take 4) = e.height ∧
    leVal (((operatorInsert [] e).drop 8).take 4) = e.data.length ∧
    ∀ j x, e.data[j]? = some x →
      leVal (((operatorInsert [] e).drop (12 + 4 * j)).take 4) = x := by
  have hbytes := operatorInsert_eq [] e hn
  rw [List.nil_append] at hbytes
  have d4 : (operatorInsert [] e).drop 4 = toBytes32 e.height ++
      (toBytes32 e.data.length ++ (e.data.map toBytes32).flatten) := by
    rw [hbytes, drop_toBytes32_append]
  have d8 : (operatorInsert [] e).drop 8 =
      toBytes32 e.data.length ++ (e.data.map toBytes32).flatten := by
    rw [show 8 = 4 + 4 by rfl, ← List.drop_drop, d4, drop_toBytes32_append]
  have d12 : (operatorInsert [] e).drop 12 = (e.data.map toBytes32).flatten := by
    rw [show 12 = 8 + 4 by rfl, ← List.drop_drop, d8, drop_toBytes32_append]
  refine ⟨?_, ?_, ?_, ?_, ?_, ?_, ?_⟩
  · rw [operatorInsert_eq out e hn, hbytes]
  · rw [hbytes]
    simp only [List.length_append, length_toBytes32, length_flatten_toBytes32]
    omega
  · intro b hb
    rw [hbytes] at hb
    simp only [List.mem_append, List.mem_flatten, List.mem_map] at hb
    rcases hb with hb | hb | hb | ⟨l, ⟨x, _, rfl⟩, hb⟩
    · exact toBytes32_lt _ b hb
    · exact toBytes32_lt _ b hb
    · exact toBytes32_lt _ b hb
    · exact toBytes32_lt _ b hb
  · rw [hbytes, take_toBytes32_append, leVal_toBytes32 _ hw]
  · rw [d4, take_toBytes32_append, leVal_toBytes32 _ hh]
  · rw [d8, take_toBytes32_append, leVal_toBytes32 _ hn]
  · intro j x hx
    rw [← List.drop_drop, d12,
      flatten_toBytes32_getElem e.data j x hx,
      leVal_toBytes32 _ (hd x (List.getElem?_mem hx))]

theorem operatorInsert_layout_witness :
    operatorInsert [9] ⟨4, 2, [1, 3, 5, 300], []⟩ = [9] ++ operatorInsert [] ⟨4, 2, [1, 3, 5, 300], []⟩ ∧
    (operatorInsert [] ⟨4, 2, [1, 3, 5, 300], []⟩).length = 12 + 4 * [1, 3, 5, 300].length ∧
    (∀ b ∈ operatorInsert [] ⟨4, 2, [1, 3, 5, 300], []⟩, b < 256) ∧
    leVal ((operatorInsert [] ⟨4, 2, [1, 3, 5, 300], []⟩).take 4) = 4 ∧
    leVal (((operatorInsert [] ⟨4, 2, [1, 3, 5, 300], []⟩).drop 4).take 4) = 2 ∧
    leVal (((operatorInsert [] ⟨4, 2, [1, 3, 5, 300], []⟩).drop 8).take 4) = [1, 3, 5, 300].length ∧
    ∀ j x, [1, 3, 5, 300][j]? = some x →
      leVal (((operatorInsert [] ⟨4, 2, [1, 3, 5, 300], []⟩).drop (12 + 4 * j)).take 4) = x :=
  operatorInsert_layout [9] ⟨4, 2, [1, 3, 5, 300], []⟩ (by decide) (by decide) (by decide)
    (by decide)

/-! ## Reading back arbitrary images -/

theorem leVal_toBytes32_mod (x : Nat) : leVal (toBytes32 x) = x % 2 ^ 32 := by
  unfold toBytes32
  simp only [leVal]
  omega

theorem read32_toBytes32_mod (x old : Nat) (rest : List Nat) :
    istream.read32 ⟨toBytes32 x ++ rest, false⟩ old = (⟨rest, false⟩, x % 2 ^ 32) := by
  rw [read32_ok _ _ (by rw [List.length_append, length_toBytes32]; omega),
    drop_toBytes32_append, take_toBytes32_append, leVal_toBytes32_mod]

theorem readData_toBytes32_mod (data : List Nat) :
    ∀ (olds rest : List Nat), olds.length = data.length →
      readData ⟨(data.map toBytes32).flatten ++ rest, false⟩ olds
        = (⟨rest, false⟩, data.map (fun x => x % 2 ^ 32)) := by
  induction data with
  | nil =>
    intro olds rest hlen
    have : olds = [] := List.length_eq_zero.1 hlen
    subst this
    simp [readData]
  | cons x xs ih =>
    intro olds rest hlen
    cases olds with
    | nil => simp at hlen
    | cons o os =>
      simp only [List.map_cons, List.flatten_cons, List.append_assoc, readData,
        read32_toBytes32_mod x o _]
      rw [ih os rest (by simpa using hlen)]

/-- Reading what `operator<<` wrote for any image, with any bytes `rest` after it: the fields
come back reduced to 32 bits, `rest` stays in the stream, and `update()` runs on the
result. -/
theorem operatorExtract_operatorInsert_any (e img : ofxRleImage) (dataSize0 : Nat)
    (rest : List Nat) :
    operatorExtract ⟨operatorInsert [] e ++ rest, false⟩ img dataSize0
      = (⟨rest, false⟩, ofxRleImage.update ⟨e.width % 2 ^ 32, e.height % 2 ^ 32,
          (e.data.take (e.data.length % 2 ^ 32)).map (fun x => x % 2 ^ 32), img.lines⟩) := by
  have hle : e.data.length % 2 ^ 32 ≤ e.data.length := Nat.mod_le _ _
  have hlen : (resize img.data (e.data.length % 2 ^ 32)).length
      = (e.data.take (e.data.length % 2 ^ 32)).length := by
    rw [length_resize, List.length_take]
    omega
  unfold operatorExtract operatorInsert
  simp only [List.nil_append, List.append_assoc]
  rw [read32_toBytes32_mod]
  simp only []
  rw [read32_toBytes32_mod]
  simp only []
  rw [read32_toBytes32_mod]
  simp only [Nat.mod_mod]
  rw [readData_toBytes32_mod _ _ rest hlen]

theorem update_of_valid (self : ofxRleImage) (h : self.width ≠ 0 ∨ self.data = []) :
    self.update = some { self with lines := reconstruct self.width self.data } := by
  unfold ofxRleImage.update
  rw [if_neg]
  rintro ⟨h0, hne⟩
  rcases h with h | h
  · exact h h0
  · exact hne h

/-! ## C16 -/

/-- C16: for every encoded image `e` and every byte string `t`, reading with `operator>>`
what `operator<<` wrote for `e` followed by `t` has the same outcome (the same width, height
and index sequence, or the same failure of `update()`) as reading what `operator<<` wrote for
`e` alone; the bytes `t` are left unread in the stream, which is not in the fail state.
Both readings yield an image, with the width, height and indices that were written, unless
the width written is `0` and indices were written. -/
theorem operatorExtract_trailing (e img : ofxRleImage) (dataSize0 : Nat) (t : List Nat) :
    (operatorExtract ⟨operatorInsert [] e ++ t, false⟩ img dataSize0).2
      = (operatorExtract ⟨operatorInsert [] e, false⟩ img dataSize0).2 ∧
    (operatorExtract ⟨operatorInsert [] e ++ t, false⟩ img dataSize0).1 = ⟨t, false⟩ ∧
    (operatorExtract ⟨operatorInsert [] e ++ t, false⟩ img dataSize0).2
      = ofxRleImage.update ⟨e.width % 2 ^ 32, e.height % 2 ^ 32,
          (e.data.take (e.data.length % 2 ^ 32)).map (fun x => x % 2 ^ 32), img.lines⟩ ∧
    ((e.width % 2 ^ 32 ≠ 0 ∨ e.data.length % 2 ^ 32 = 0) →
      ∃ r, (operatorExtract ⟨operatorInsert [] e ++ t, false⟩ img dataSize0).2 = some r ∧
        (operatorExtract ⟨operatorInsert [] e, false⟩ img dataSize0).2 = some r ∧
        r.width = e.width % 2 ^ 32 ∧ r.height = e.height % 2 ^ 32 ∧
        r.data = (e.data.take (e.data.length % 2 ^ 32)).map (fun x => x % 2 ^ 32)) := by
  have h1 := operatorExtract_operatorInsert_any e img dataSize0 t
  have h2 := operatorExtract_operatorInsert_any e img dataSize0 []
  rw [List.append_nil] at h2
  rw [h1, h2]
  refine ⟨rfl, rfl, rfl, ?_⟩
  intro hv
  refine ⟨_, update_of_valid _ ?_, update_of_valid _ ?_, rfl, rfl, rfl⟩
  · rcases hv with hv | hv
    · exact Or.inl hv
    · right
      show List.map _ (List.take (e.data.length % 2 ^ 32) e.data) = []
      rw [hv, List.take_zero, List.map_nil]
  · rcases hv with hv | hv
    · exact Or.inl hv
    · right
      show List.map _ (List.take (e.data.length % 2 ^ 32) e.data) = []
      rw [hv, List.take_zero, List.map_nil]

theorem operatorExtract_trailing_witness :
    (operatorExtract ⟨operatorInsert [] ⟨4, 2, [1, 3, 5, 300], []⟩ ++ [8, 8, 8], false⟩
        ofxRleImage.new 0).2
      = (operatorExtract ⟨operatorInsert [] ⟨4, 2, [1, 3, 5, 300], []⟩, false⟩
        ofxRleImage.new 0).2 ∧
    (operatorExtract ⟨operatorInsert [] ⟨4, 2, [1, 3, 5, 300], []⟩ ++ [8, 8, 8], false⟩
        ofxRleImage.new 0).1 = ⟨[8, 8, 8], false⟩ ∧
    (operatorExtract ⟨operatorInsert [] ⟨4, 2, [1, 3, 5, 300], []⟩ ++ [8, 8, 8], false⟩
        ofxRleImage.new 0).2
      = ofxRleImage.update ⟨4 % 2 ^ 32, 2 % 2 ^ 32,
          ([1, 3, 5, 300].take ([1, 3, 5, 300].length % 2 ^ 32)).map (fun x => x % 2 ^ 32),
          ofxRleImage.new.lines⟩ ∧
    ((4 % 2 ^ 32 ≠ 0 ∨ [1, 3, 5, 300].length % 2 ^ 32 = 0) →
      ∃ r, (operatorExtract ⟨operatorInsert [] ⟨4, 2, [1, 3, 5, 300], []⟩ ++ [8, 8, 8], false⟩
          ofxRleImage.new 0).2 = some r ∧
        (operatorExtract ⟨operatorInsert [] ⟨4, 2, [1, 3, 5, 300], []⟩, false⟩
          ofxRleImage.new 0).2 = some r ∧
        r.width = 4 % 2 ^ 32 ∧ r.height = 2 % 2 ^ 32 ∧
        r.data = ([1, 3, 5, 300].take ([1, 3, 5, 300].length % 2 ^ 32)).map
          (fun x => x % 2 ^ 32)) :=
  operatorExtract_trailing ⟨4, 2, [1, 3, 5, 300], []⟩ ofxRleImage.new 0 [8, 8, 8]

/-! ## Number of reconstructed points -/

theorem length_bridgePoints (width r0 k : Nat) : (bridgePoints width r0 k).length = 2 * k := by
  induction k generalizing r0 with
  | zero => simp [bridgePoints]
  | succ k ih =>
    rw [bridgePoints_succ, List.length_cons, List.length_cons, ih]
    omega

theorem length_pairPoints (width s e : Nat) :
    (pairPoints width s e).length = 2 + 2 * (e / width - s / width) := by
  unfold pairPoints
  simp only [List.length_append, List.length_singleton, length_bridgePoints]
  omega

theorem length_reconstruct (width : Nat) :
    ∀ data : List Nat, data.length ≤ (reconstruct width data).length ∧
      (reconstruct width data).length % 2 = data.length % 2
  | [] => by simp [reconstruct_nil]
  | [x] => by simp [reconstruct, updateLoop, updateStep]
  | s :: e :: rest => by
    have ih := length_reconstruct width rest
    rw [reconstruct_pair_cons, List.length_append, length_pairPoints]
    simp only [List.length_cons]
    omega

/-! ## C17 -/

/-- C17: for every width > 0 and every index sequence, `update()` completes and the number
of points it emits is at least the number of input indices and has the same parity, so it
is even for every even-length input and zero for the empty input. -/
theorem update_length (self : ofxRleImage) (hw : 0 < self.width) :
    ∃ r, self.update = some r ∧
      self.data.length ≤ r.lines.length ∧
      r.lines.length % 2 = self.data.length % 2 ∧
      (self.data.length % 2 = 0 → r.lines.length % 2 = 0) ∧
      (self.data = [] → r.lines = []) := by
  have hl := length_reconstruct self.width self.data
  refine ⟨_, update_eq self hw, hl.1, hl.2, ?_, ?_⟩
  · intro heven
    show (reconstruct self.width self.data).length % 2 = 0
    omega
  · intro hnil
    show reconstruct self.width self.data = []
    rw [hnil, reconstruct_nil]

theorem update_length_witness :
    ∃ r, ofxRleImage.update ⟨4, 4, [1, 3, 6, 13, 14], []⟩ = some r ∧
      [1, 3, 6, 13, 14].length ≤ r.lines.length ∧
      r.lines.length % 2 = [1, 3, 6, 13, 14].length % 2 ∧
      ([1, 3, 6, 13, 14].length % 2 = 0 → r.lines.length % 2 = 0) ∧
      ([1, 3, 6, 13, 14] = [] → r.lines = []) :=
  update_length ⟨4, 4, [1, 3, 6, 13, 14], []⟩ (by decide)

/-! ## The zeroed copy -/

theorem length_zeroedEnds (raw : List Nat) (n : Nat) : (zeroedEnds raw n).length = raw.length := by
  simp [zeroedEnds]

theorem byteAt_zeroedEnds (raw : List Nat) (n i : Nat) (hlen : raw.length = n) :
    byteAt (zeroedEnds raw n) i =
      if i < 8 ∨ 8 * lastChunkOf n ≤ i then 0 else byteAt raw i := by
  show List.getD (zeroedEnds raw n) i 0 = _
  by_cases hi : i < raw.length
  · rw [List.getD_eq_getElem _ _ (by rw [length_zeroedEnds]; exact hi)]
    simp only [zeroedEnds, lastChunkOf, List.getElem_map, List.getElem_range]
    have : i < n := by omega
    simp only [this, and_true]
  · rw [List.getD_eq_default _ _ (by rw [length_zeroedEnds]; omega)]
    have h0 : byteAt raw i = 0 := List.getD_eq_default _ _ (by omega)
    rw [h0, ite_self]

/-- The per-byte transitions of the zeroed copy are the transitions that the word-parallel
scan records. -/
theorem byteTransitions_zeroedEnds (raw : List Nat) (n : Nat) (hlen : raw.length = n)
    (h8 : 8 ≤ n) :
    byteTransitions (zeroedEnds raw n) 0 n
      = fastScan (zeroedWords raw n) (lastChunkOf n) := by
  have hb := lastChunkOf_bound n h8
  rw [fastScan_zeroedWords raw n hlen h8]
  obtain ⟨r, hr⟩ : ∃ r, n = (8 * lastChunkOf n + 8) + r :=
    ⟨n - (8 * lastChunkOf n + 8), by omega⟩
  have hz : ∀ i, 8 * lastChunkOf n ≤ i → byteAt (zeroedEnds raw n) i = 0 := by
    intro i hi
    rw [byteAt_zeroedEnds raw n i hlen, if_pos (Or.inr hi)]
  have hsplit : byteTransitions (zeroedEnds raw n) 0 n
      = byteTransitions (zeroedEnds raw n) 0 (8 * lastChunkOf n + 8) ++
        byteTransitions (zeroedEnds raw n) (8 * lastChunkOf n + 8) r := by
    have e := byteTransitions_add (zeroedEnds raw n) 0 (8 * lastChunkOf n + 8) r
    rw [zero_add] at e
    exact (congrArg (byteTransitions (zeroedEnds raw n) 0) hr).trans e
  rw [hsplit, byteTransitions_eq_nil (zeroedEnds raw n) (8 * lastChunkOf n + 8) r
    (fun i h1 _ => hz i (by omega))
    (by rw [show 8 * lastChunkOf n + 8 = (8 * lastChunkOf n + 7) + 1 by omega, prevByte_succ]
        exact hz _ (by omega)), List.append_nil]
  apply byteTransitions_congr
  intro i hi
  rw [byteAt_zeroedEnds raw n i hlen, byteAt_zeroedWords raw n i hlen h8]
  by_cases h1 : i < 8
  · simp [h1]
  · by_cases h2 : 8 * lastChunkOf n ≤ i
    · have h3 : i < 8 * lastChunkOf n + 8 := by omega
      simp [h1, h2, h3]
    · simp [h1, h2]

/-! ## C18 -/

/-- C18: for every raster with `n = width * height ≥ 8`, the sequence produced with
`useFastEncoding = true` equals the sequence that the reference strategy produces on the copy
of the raster in which the bytes `[0, 8)` and the bytes `[8 * (n / 8 - 1), n)` are set to
zero; before the closing index, it holds every transition of that copy, each exactly once
and in increasing order. -/
theorem load_fast_characterisation (self : ofxRleImage) (img : ofImage) (h : Raster img)
    (h8 : 8 ≤ img.width * img.height) :
    ∃ sf imgf sr,
      ofxRleImage.load true self img = some (sf, imgf) ∧
      ofxRleImage.load false self
          { img with pixels := zeroedEnds img.pixels (img.width * img.height) }
        = some (sr, { img with pixels := zeroedEnds img.pixels (img.width * img.height) }) ∧
      sf.data = sr.data ∧
      ∃ t : List Nat, t.Pairwise (· < ·) ∧
        (∀ i, i ∈ t ↔ (i < img.width * img.height ∧
          byteAt (zeroedEnds img.pixels (img.width * img.height)) i
            ≠ prevByte (zeroedEnds img.pixels (img.width * img.height)) i)) ∧
        sf.data = if t.length % 2 = 1 then t ++ [img.width * img.height - 1] else t := by
  have hcopy : Raster { img with pixels := zeroedEnds img.pixels (img.width * img.height) } :=
    ⟨h.1, by rw [length_zeroedEnds]; exact h.2.1, h.2.2⟩
  have hscan := byteTransitions_zeroedEnds img.pixels (img.width * img.height) h.2.1 h8
  refine ⟨_, _, _, load_fast_eq self img h h8, load_reference_eq self _ hcopy, ?_,
    byteTransitions (zeroedEnds img.pixels (img.width * img.height)) 0
      (img.width * img.height), byteTransitions_sorted _ _ _, ?_, ?_⟩
  · show closeRun _ _ = closeRun _ _
    rw [hscan]
  · intro i
    rw [mem_byteTransitions]
    constructor
    · rintro ⟨⟨_, h2⟩, h3⟩
      exact ⟨by omega, h3⟩
    · rintro ⟨h2, h3⟩
      exact ⟨⟨Nat.zero_le _, by omega⟩, h3⟩
  · show closeRun _ _ = _
    rw [← hscan]
    apply closeRun_eq _ _ (by have := h.2.2; omega)
    intro hne
    obtain ⟨i, hi⟩ := List.exists_mem_of_ne_nil _ hne
    have := (mem_byteTransitions _ _ _ _).1 hi
    omega

theorem load_fast_characterisation_witness :
    ∃ sf imgf sr,
      ofxRleImage.load true ofxRleImage.new ⟨OF_IMAGE_GRAYSCALE, 5, 5,
        [1, 1, 1, 1, 1, 1, 1, 1, 1, 7, 7, 0, 0, 0, 0, 9, 4, 4, 4, 4, 4, 4, 4, 4, 4]⟩
        = some (sf, imgf) ∧
      ofxRleImage.load false ofxRleImage.new
          { (⟨OF_IMAGE_GRAYSCALE, 5, 5,
              [1, 1, 1, 1, 1, 1, 1, 1, 1, 7, 7, 0, 0, 0, 0, 9, 4, 4, 4, 4, 4, 4, 4, 4, 4]⟩ :
              ofImage) with
            pixels := zeroedEnds
              [1, 1, 1, 1, 1, 1, 1, 1, 1, 7, 7, 0, 0, 0, 0, 9, 4, 4, 4, 4, 4, 4, 4, 4, 4]
              (5 * 5) }
        = some (sr,
          { (⟨OF_IMAGE_GRAYSCALE, 5, 5,
              [1, 1, 1, 1, 1, 1, 1, 1, 1, 7, 7, 0, 0, 0, 0, 9, 4, 4, 4, 4, 4, 4, 4, 4, 4]⟩ :
              ofImage) with
            pixels := zeroedEnds
              [1, 1, 1, 1, 1, 1, 1, 1, 1, 7, 7, 0, 0, 0, 0, 9, 4, 4, 4, 4, 4, 4, 4, 4, 4]
              (5 * 5) }) ∧
      sf.data = sr.data ∧
      ∃ t : List Nat, t.Pairwise (· < ·) ∧
        (∀ i, i ∈ t ↔ (i < 5 * 5 ∧
          byteAt (zeroedEnds
              [1, 1, 1, 1, 1, 1, 1, 1, 1, 7, 7, 0, 0, 0, 0, 9, 4, 4, 4, 4, 4, 4, 4, 4, 4]
              (5 * 5)) i
            ≠ prevByte (zeroedEnds
              [1, 1, 1, 1, 1, 1, 1, 1, 1, 7, 7, 0, 0, 0, 0, 9, 4, 4, 4, 4, 4, 4, 4, 4, 4]
              (5 * 5)) i)) ∧
        sf.data = if t.length % 2 = 1 then t ++ [5 * 5 - 1] else t :=
  load_fast_characterisation ofxRleImage.new ⟨OF_IMAGE_GRAYSCALE, 5, 5,
    [1, 1, 1, 1, 1, 1, 1, 1, 1, 7, 7, 0, 0, 0, 0, 9, 4, 4, 4, 4, 4, 4, 4, 4, 4]⟩
    (by decide) (by decide)

/-! ## Segments -/

theorem mem_pairsOf_iff {α : Type} : ∀ (l : List α) (a b : α),
    (a, b) ∈ pairsOf l ↔ ∃ j, l[2 * j]? = some a ∧ l[2 * j + 1]? = some b
  | [], a, b => by simp [pairsOf]
  | [x], a, b => by simp [pairsOf]
  | x :: y :: rest, a, b => by
    rw [pairsOf, List.mem_cons, mem_pairsOf_iff rest a b]
    constructor
    · rintro (h | ⟨j, h1, h2⟩)
      · simp only [Prod.mk.injEq] at h
        exact ⟨0, by simp [h.1], by simp [h.2]⟩
      · refine ⟨j + 1, ?_, ?_⟩
        · rw [show 2 * (j + 1) = 2 * j + 1 + 1 by omega]; simpa using h1
        · rw [show 2 * (j + 1) + 1 = (2 * j + 1) + 1 + 1 by omega]; simpa using h2
    · rintro ⟨j, h1, h2⟩
      cases j with
      | zero =>
        left
        simp only [Nat.mul_zero, List.getElem?_cons_zero, Option.some.injEq, Nat.zero_add,
          List.getElem?_cons_succ] at h1 h2
        rw [h1, h2]
      | succ j =>
        right
        refine ⟨j, ?_, ?_⟩
        · rw [show 2 * (j + 1) = 2 * j + 1 + 1 by omega] at h1; simpa using h1
        · rw [show 2 * (j + 1) + 1 = (2 * j + 1) + 1 + 1 by omega] at h2; simpa using h2

theorem pairsOf_cons_cons {α : Type} (a b : α) (rest : List α) :
    pairsOf (a :: b :: rest) = (a, b) :: pairsOf rest := rfl

theorem pairsOf_append {α : Type} : ∀ (l1 l2 : List α), l1.length % 2 = 0 →
    pairsOf (l1 ++ l2) = pairsOf l1 ++ pairsOf l2
  | [], l2, _ => by simp [pairsOf]
  | [x], l2, h => by simp at h
  | x :: y :: rest, l2, h => by
    have ih := pairsOf_append rest l2 (by simp only [List.length_cons] at h; omega)
    rw [List.cons_append, List.cons_append, pairsOf_cons_cons, pairsOf_cons_cons, ih,
      List.cons_append]

/-- The segments of the points of one pair: each is horizontal and runs left to right within
`[0, width]`, and together they cover the flat span from the start point to the end
point. -/
theorem bridge_segments (width : Nat) (k : Nat) :
    ∀ (r : Nat) (a b : RlePoint2d), a.y = r → b.y = r + k → a.x ≤ width → b.x ≤ width →
      (k = 0 → a.x ≤ b.x) →
      (∀ pq ∈ pairsOf (a :: (bridgePoints width r k ++ [b])),
        pq.1.y = pq.2.y ∧ pq.1.x ≤ pq.2.x ∧ pq.2.x ≤ width) ∧
      ∀ i, (∃ pq ∈ pairsOf (a :: (bridgePoints width r k ++ [b])),
          pq.1.y * width + pq.1.x ≤ i ∧ i < pq.2.y * width + pq.2.x) ↔
        (r * width + a.x ≤ i ∧ i < (r + k) * width + b.x) := by
  induction k with
  | zero =>
    intro r a b ha hb hax hbx hk
    have hab := hk rfl
    have hl : a :: (bridgePoints width r 0 ++ [b]) = [a, b] := by simp [bridgePoints]
    have hp : pairsOf [a, b] = [(a, b)] := rfl
    rw [hl, hp]
    simp only [List.mem_singleton, forall_eq, exists_eq_left, ha, hb, Nat.add_zero]
    exact ⟨⟨trivial, hab, hbx⟩, fun i => trivial⟩
  | succ k ih =>
    intro r a b ha hb hax hbx _
    have hrec := ih (r + 1) ⟨0, r + 1⟩ b rfl (by rw [hb]; omega) (Nat.zero_le _) hbx
      (fun _ => Nat.zero_le _)
    rw [bridgePoints_succ, List.cons_append, List.cons_append, pairsOf_cons_cons]
    simp only [List.mem_cons, forall_eq_or_imp, exists_eq_or_imp]
    refine ⟨⟨⟨ha, hax, le_refl _⟩, hrec.1⟩, ?_⟩
    intro i
    rw [hrec.2 i, ha]
    have e1 : (r + 1) * width = r * width + width := by ring
    have e2 : (r + 1 + k) * width = r * width + width + k * width := by ring
    have e3 : (r + (k + 1)) * width = r * width + width + k * width := by ring
    simp only [e1, e2, e3, Nat.add_zero]
    constructor
    · rintro (h | h) <;> omega
    · intro h
      by_cases hc : i < r * width + width
      · exact Or.inl ⟨h.1, hc⟩
      · exact Or.inr ⟨by omega, h.2⟩

theorem pairPoints_segments (width s e : Nat) (hw : 0 < width) (hse : s ≤ e) :
    (∀ pq ∈ pairsOf (pairPoints width s e),
      pq.1.y = pq.2.y ∧ pq.1.x ≤ pq.2.x ∧ pq.2.x ≤ width) ∧
    ∀ i, (∃ pq ∈ pairsOf (pairPoints width s e),
        pq.1.y * width + pq.1.x ≤ i ∧ i < pq.2.y * width + pq.2.x) ↔ (s ≤ i ∧ i < e) := by
  have hrow : s / width ≤ e / width := Nat.div_le_div_right hse
  have hs := Nat.div_add_mod s width
  have he := Nat.div_add_mod e width
  have hsm := Nat.mod_lt s hw
  have hem := Nat.mod_lt e hw
  have c1 : s / width * width = width * (s / width) := Nat.mul_comm _ _
  have c2 : e / width * width = width * (e / width) := Nat.mul_comm _ _
  have key := bridge_segments width (e / width - s / width) (s / width)
    ⟨s % width, s / width⟩ ⟨e % width, e / width⟩ rfl (by simp only; omega)
    (le_of_lt hsm) (le_of_lt hem)
    (by
      intro hk
      have heq : e / width = s / width := by omega
      rw [heq] at he
      simp only
      omega)
  have hlist : pairPoints width s e = ⟨s % width, s / width⟩ ::
      (bridgePoints width (s / width) (e / width - s / width) ++ [⟨e % width, e / width⟩]) := by
    simp [pairPoints]
  rw [hlist]
  refine ⟨key.1, ?_⟩
  intro i
  rw [key.2 i]
  simp only
  rw [show s / width + (e / width - s / width) = e / width by omega, c1, c2]
  omega

theorem reconstruct_segments (width : Nat) (hw : 0 < width) :
    ∀ data : List Nat, data.length % 2 = 0 → (∀ se ∈ pairsOf data, se.1 ≤ se.2) →
      (∀ pq ∈ pairsOf (reconstruct width data),
        pq.1.y = pq.2.y ∧ pq.1.x ≤ pq.2.x ∧ pq.2.x ≤ width) ∧
      ∀ i, (∃ pq ∈ pairsOf (reconstruct width data),
          pq.1.y * width + pq.1.x ≤ i ∧ i < pq.2.y * width + pq.2.x) ↔
        (∃ se ∈ pairsOf data, se.1 ≤ i ∧ i < se.2)
  | [], _, _ => by
    rw [reconstruct_nil]
    simp [pairsOf]
  | [x], hlen, _ => by simp at hlen
  | s :: e :: rest, hlen, hpairs => by
    rw [pairsOf_cons_cons] at hpairs
    have hse : s ≤ e := hpairs (s, e) (List.mem_cons_self _ _)
    have ih := reconstruct_segments width hw rest
      (by simp only [List.length_cons] at hlen; omega)
      (fun se hmem => hpairs se (List.mem_cons_of_mem _ hmem))
    have hp := pairPoints_segments width s e hw hse
    have heven : (pairPoints width s e).length % 2 = 0 := by
      rw [length_pairPoints]; omega
    rw [reconstruct_pair_cons, pairsOf_append _ _ heven, pairsOf_cons_cons]
    constructor
    · intro pq hmem
      rw [List.mem_append] at hmem
      rcases hmem with hmem | hmem
      · exact hp.1 pq hmem
      · exact ih.1 pq hmem
    · intro i
      constructor
      · rintro ⟨pq, hmem, hspan⟩
        rw [List.mem_append] at hmem
        rcases hmem with hmem | hmem
        · exact ⟨(s, e), List.mem_cons_self _ _, (hp.2 i).1 ⟨pq, hmem, hspan⟩⟩
        · obtain ⟨se, hse1, hse2⟩ := (ih.2 i).1 ⟨pq, hmem, hspan⟩
          exact ⟨se, List.mem_cons_of_mem _ hse1, hse2⟩
      · rintro ⟨se, hmem, hspan⟩
        rw [List.mem_cons] at hmem
        rcases hmem with rfl | hmem
        · obtain ⟨pq, h1, h2⟩ := (hp.2 i).2 hspan
          exact ⟨pq, List.mem_append_left _ h1, h2⟩
        · obtain ⟨pq, h1, h2⟩ := (ih.2 i).2 ⟨se, hmem, hspan⟩
          exact ⟨pq, List.mem_append_right _ h1, h2⟩

/-! ## C19 -/

/-- C19: for every width > 0 and every even-length index sequence in which each pair
satisfies `start ≤ end`, `update()` completes and the points it emits, taken pairwise as
`(p[2j], p[2j+1])`, have equal `y` and `p[2j].x ≤ p[2j+1].x ≤ width`, and a flat pixel index
lies in one of the spans `[y * width + p[2j].x, y * width + p[2j+1].x)` exactly when it lies
in one of the input spans `[start, end)`. -/
theorem update_segments_cover (self : ofxRleImage) (hw : 0 < self.width)
    (heven : self.data.length % 2 = 0) (hpairs : ∀ se ∈ pairsOf self.data, se.1 ≤ se.2) :
    ∃ r, self.update = some r ∧
      (∀ pq ∈ pairsOf r.lines, pq.1.y = pq.2.y ∧ pq.1.x ≤ pq.2.x ∧ pq.2.x ≤ self.width) ∧
      ∀ i, (∃ pq ∈ pairsOf r.lines,
          pq.1.y * self.width + pq.1.x ≤ i ∧ i < pq.2.y * self.width + pq.2.x) ↔
        (∃ se ∈ pairsOf self.data, se.1 ≤ i ∧ i < se.2) :=
  ⟨_, update_eq self hw, reconstruct_segments self.width hw self.data heven hpairs⟩

theorem update_segments_cover_witness :
    ∃ r, ofxRleImage.update ⟨4, 4, [1, 3, 6, 13], []⟩ = some r ∧
      (∀ pq ∈ pairsOf r.lines, pq.1.y = pq.2.y ∧ pq.1.x ≤ pq.2.x ∧ pq.2.x ≤ 4) ∧
      ∀ i, (∃ pq ∈ pairsOf r.lines,
          pq.1.y * 4 + pq.1.x ≤ i ∧ i < pq.2.y * 4 + pq.2.x) ↔
        (∃ se ∈ pairsOf [1, 3, 6, 13], se.1 ≤ i ∧ i < se.2) :=
  update_segments_cover ⟨4, 4, [1, 3, 6, 13], []⟩ (by decide) (by decide) (by decide)

/-! ## C20 -/

/-- C20: for every width > 0, every even-length index sequence `a` and every index sequence
`b`, `update()` on `a` followed by `b` completes and emits the points it emits for `a`
followed by the points it emits for `b`: the bridging done for a pair does not depend on
the rows of the pairs before it. -/
theorem update_append (width height : Nat) (a b : List Nat) (l0 l1 l2 : List RlePoint2d)
    (hw : 0 < width) (ha : a.length % 2 = 0) :
    ∃ rab ra rb,
      ofxRleImage.update ⟨width, height, a ++ b, l0⟩ = some rab ∧
      ofxRleImage.update ⟨width, height, a, l1⟩ = some ra ∧
      ofxRleImage.update ⟨width, height, b, l2⟩ = some rb ∧
      rab.lines = ra.lines ++ rb.lines :=
  ⟨_, _, _, update_eq _ hw, update_eq _ hw, update_eq _ hw, reconstruct_append width a b ha⟩

theorem update_append_witness :
    ∃ rab ra rb,
      ofxRleImage.update ⟨4, 4, [1, 3] ++ [6, 13, 14], []⟩ = some rab ∧
      ofxRleImage.update ⟨4, 4, [1, 3], [⟨9, 9⟩]⟩ = some ra ∧
      ofxRleImage.update ⟨4, 4, [6, 13, 14], []⟩ = some rb ∧
      rab.lines = ra.lines ++ rb.lines :=
  update_append 4 4 [1, 3] [6, 13, 14] [] [⟨9, 9⟩] [] (by decide) (by decide)
